import Mathlib

/-!
Shallow embedding of `runtime/frame_descriptors.c`: the OCaml runtime's
registry mapping return addresses to frame descriptors.

The registry is an open-addressed hash table over an array of slots.  A slot
holds either `NULL` (empty, modelled as `none`), the address of the static
`dummy_descr` record (tombstone, modelled as `some dummy_descr`), or a pointer
to a live `frame_descr` (modelled as `some d`).  Pointer identity of records
is modelled by the `ptr` field; the batch ("frametable") memory layout
(a count word followed by variable-length records traversed by
`next_frame_descr`) is modelled as a list of records, so `next_frame_descr`
is the step from one list element to the next and the count word is the list
length.  The C probe loops have no termination guarantee in general, so each
is given explicit fuel; a `none` result of a loop marks fuel exhaustion,
i.e. a state in which the C loop has not yet exited.
-/

/-- A single frame descriptor.  `retaddr` is the lookup key; `ptr` models the
record's address, so value equality of `frame_descr` models C pointer
equality. -/
structure frame_descr where
  ptr : Nat
  retaddr : Nat
deriving DecidableEq

/-- The static placeholder record `dummy_descr` of frame_descriptors.c, whose
`retaddr` field holds its own address (`(uintnat)&dummy_descr`).  Its address
is disjoint from any valid return address (valid return addresses are
at least 4096, per the assertion in `next_frame_descr`). -/
def dummy_descr : frame_descr := { ptr := 1, retaddr := 1 }

/-- One cell of the descriptors array: `none` is C's `NULL`. -/
abbrev Slot := Option frame_descr

/-- One frametable (a batch): its address `id` and its records in layout
order.  The count word `*frametable` is `descrs.length`. -/
structure Frametable where
  id : Nat
  descrs : List frame_descr
deriving DecidableEq

/-- The registry state `caml_frame_descrs` (`num_descr`, `mask`,
`descriptors`, `frametables`).  `num_descr` is an `intnat` in C, hence `Int`.
The linked list of frametables is a Lean list. -/
structure caml_frame_descrs where
  num_descr : Int
  mask : Nat
  descriptors : Array Slot
  frametables : List Frametable

/-- Modelled from the spec: the macro `Hash_retaddr` lives in
`caml/frame_descriptors.h`, which is not part of the provided source; the
spec says the hash of the return address is reduced modulo the capacity via
bitmask.  The OCaml runtime's macro is `((addr >> 3) & mask)`. -/
def Hash_retaddr (addr mask : Nat) : Nat := (addr >>> 3) &&& mask

/-- The count word of a frametable, i.e. `*((intnat*) frametable)`. -/
def frametable_len (ft : Frametable) : Nat := ft.descrs.length

/-- C `count_descriptors`: total record count of a frametable list. -/
def count_descriptors (l : List Frametable) : Nat :=
  l.foldl (fun n ft => n + frametable_len ft) 0

/-- C `capacity`: length of the descriptors array, `mask + 1`. -/
def capacity (t : caml_frame_descrs) : Nat := t.mask + 1

/-- The probe loop of `fill_hashtable`: starting at slot `h`, advance while
the slot holds a live record (`e != NULL && e != &dummy_descr`), and return
the index of the first free slot.  Fuel-indexed; `none` is fuel exhaustion
(the C loop would still be running). -/
def probe_free (descs : Array Slot) (mask : Nat) : Nat → Nat → Option Nat
  | _, 0 => none
  | h, fuel+1 =>
    match descs.getD h none with
    | none => some h
    | some e => if e = dummy_descr then some h
                else probe_free descs mask ((h + 1) &&& mask) fuel

/-- One insertion of `fill_hashtable`'s inner loop: probe from the hash of
`d.retaddr` and store `d` in the first free slot.  If the probe exhausts its
fuel (a full table, on which the C loop never exits), the array is returned
unchanged. -/
def insert_descr (mask : Nat) (descs : Array Slot) (d : frame_descr)
    (fuel : Nat) : Array Slot :=
  match probe_free descs mask (Hash_retaddr d.retaddr mask) fuel with
  | some h => descs.setD h (some d)
  | none => descs

/-- C `fill_hashtable`: insert every record of every frametable, in list
order, into the slot array.  Each probe gets fuel `mask + 1` (the capacity),
which suffices whenever a free slot exists. -/
def fill_hashtable (mask : Nat) (descs : Array Slot)
    (new_frametables : List Frametable) : Array Slot :=
  new_frametables.foldl
    (fun a ft => ft.descrs.foldl (fun a' d => insert_descr mask a' d (mask + 1)) a)
    descs

/-- The sizing loop of `realloc_frame_descriptors`:
`while (tblsize < 2 * num_descr) tblsize *= 2`.  Fuel-indexed like the other
loops so that it evaluates; since `tblsize` starts at 4 and at least doubles
each round, fuel `2 * num_descr + 2` always reaches the loop's exit. -/
def grow_tblsize (num_descr : Nat) : Nat → Nat → Nat
  | t, 0 => t
  | t, fuel+1 => if t < 2 * num_descr then grow_tblsize num_descr (2 * t) fuel
                 else t

/-- C `realloc_frame_descriptors`: count the records of `new_frametables`,
size the table at the smallest power of two (at least 4) with
`2 * num_descr <= tblsize`, allocate a `NULL`-initialized array, fill it, and
install `new_frametables` as the registry's frametable list.  The old array
is freed and otherwise unused, so the result depends only on the frametable
list. -/
def realloc_frame_descriptors (new_frametables : List Frametable) :
    caml_frame_descrs :=
  let num_descr := count_descriptors new_frametables
  let tblsize := grow_tblsize num_descr 4 (2 * num_descr + 2)
  { num_descr := (num_descr : Int)
    mask := tblsize - 1
    descriptors := fill_hashtable (tblsize - 1) (mkArray tblsize (none : Slot))
      new_frametables
    frametables := new_frametables }

/-- C `caml_init_frame_descriptors`: cons the startup frametables into a
list (reversing their order) and build the table. -/
def caml_init_frame_descriptors (caml_frametable : List Frametable) :
    caml_frame_descrs :=
  realloc_frame_descriptors
    (caml_frametable.foldl (fun acc ft => ft :: acc) [])

/-- C `realloc_frame_descriptors_from_stw_single`, the body run by the single
elected domain inside the stop-the-world barrier.  It re-checks the capacity;
if still insufficient it merges the new list onto the tail of the old one
(`tail->next = table->frametables`) and rebuilds wholesale, otherwise it
performs the fast-path fold on the existing array. -/
def realloc_frame_descriptors_from_stw_single (table : caml_frame_descrs)
    (new_frametables : List Frametable) (increase : Int) :
    caml_frame_descrs :=
  let tblsize : Int := (capacity table : Int)
  if tblsize < (table.num_descr + increase) * 2 then
    realloc_frame_descriptors (new_frametables ++ table.frametables)
  else
    { table with
        num_descr := table.num_descr + increase
        descriptors := fill_hashtable table.mask table.descriptors
          new_frametables
        frametables := new_frametables ++ table.frametables }

/-- C `add_frame_descriptors`: if the table is too small, run the
stop-the-world rebuild (the `caml_try_run_on_all_domains` retry loop repeats
until the barrier body has run; its completed run is modelled directly),
otherwise fold the new records into the existing array and prepend the new
frametables to the list. -/
def add_frame_descriptors (table : caml_frame_descrs)
    (new_frametables : List Frametable) : caml_frame_descrs :=
  let increase : Int := (count_descriptors new_frametables : Int)
  let tblsize : Int := (capacity table : Int)
  if tblsize < (table.num_descr + increase) * 2 then
    realloc_frame_descriptors_from_stw_single table new_frametables increase
  else
    { table with
        num_descr := table.num_descr + increase
        descriptors := fill_hashtable table.mask table.descriptors
          new_frametables
        frametables := new_frametables ++ table.frametables }

/-- C `caml_register_frametables`: cons the array entries into a list
(reversing their order) and add them. -/
def caml_register_frametables (table : caml_frame_descrs)
    (frametables : List Frametable) : caml_frame_descrs :=
  add_frame_descriptors table (frametables.foldl (fun acc ft => ft :: acc) [])

/-- C `caml_register_frametable`: single-table convenience wrapper. -/
def caml_register_frametable (table : caml_frame_descrs) (ft : Frametable) :
    caml_frame_descrs :=
  caml_register_frametables table [ft]

/-- The probe loop of C `invalid_entry`: advance from the hash of
`e->retaddr` until the slot holding exactly the record `e` (pointer
equality) is found, and overwrite that slot with `&dummy_descr`.
Fuel-indexed; `none` is fuel exhaustion (the C loop never exits when `e` is
not in the table). -/
def invalid_entry_loop (descs : Array Slot) (mask : Nat) (e : frame_descr) :
    Nat → Nat → Option (Array Slot)
  | _, 0 => none
  | h, fuel+1 =>
    if descs.getD h none = some e then
      some (descs.setD h (some dummy_descr))
    else invalid_entry_loop descs mask e ((h + 1) &&& mask) fuel

/-- C `invalid_entry` on the descriptors array. -/
def invalid_entry (descs : Array Slot) (mask : Nat) (e : frame_descr)
    (fuel : Nat) : Option (Array Slot) :=
  invalid_entry_loop descs mask e (Hash_retaddr e.retaddr mask) fuel

/-- The first phase of C `remove_frame_descriptors` applied to one
frametable: invalidate each of its records in layout order. -/
def invalidate_frametable (mask : Nat) (fuel : Nat) (descs : Option (Array Slot))
    (ft : Frametable) : Option (Array Slot) :=
  ft.descrs.foldl (fun a d => a.bind (fun a' => invalid_entry a' mask d fuel))
    descs

/-- First match of `current` in the caller's array among indices
`0 .. ntables-1`: the inner `for` loop of the unlink phase. -/
def scan_tables (a : Array Frametable) (cur : Frametable) :
    Nat → Nat → Option Nat
  | _, 0 => none
  | i, k+1 =>
    if a.getD i { id := 0, descrs := [] } = cur then some i
    else scan_tables a cur (i + 1) k

/-- The unlink phase of C `remove_frame_descriptors`: walk the registry's
frametable list; when a node matches an entry of the caller's array, unlink
the node, decrement `ntables`, swap the last pending array entry into the
matched position (`frametables[i] = frametables[ntables]`), and resume with
the next node; stop early when `ntables` reaches zero.  Returns the remaining
list, the caller's (mutated) array and the final `ntables`. -/
def unlink_frametables : List Frametable → Array Frametable → Nat →
    List Frametable × Array Frametable × Nat
  | [], a, n => ([], a, n)
  | cur :: rest, a, n =>
    match scan_tables a cur 0 n with
    | some i =>
      if n - 1 = 0 then (rest, a, 0)
      else
        unlink_frametables rest
          (a.setD i (a.getD (n - 1) { id := 0, descrs := [] })) (n - 1)
    | none =>
      let r := unlink_frametables rest a n
      (cur :: r.1, r.2.1, r.2.2)

/-- C `remove_frame_descriptors`: tombstone every record of every listed
frametable, decrement `num_descr` by the total removed count, and unlink the
frametables from the registry list (mutating the caller's array in place).
Returns the new registry state and the caller's array as it is left after
the call, or `none` if some `invalid_entry` probe exhausts its fuel. -/
def remove_frame_descriptors (t : caml_frame_descrs)
    (frametables : Array Frametable) (fuel : Nat) :
    Option (caml_frame_descrs × Array Frametable) :=
  let ntables := frametables.size
  match frametables.toList.foldl (invalidate_frametable t.mask fuel)
      (some t.descriptors) with
  | none => none
  | some descs =>
    let decrease : Int :=
      (frametables.toList.foldl (fun n ft => n + frametable_len ft) 0 : Nat)
    let r := unlink_frametables t.frametables frametables ntables
    some ({ t with
              num_descr := t.num_descr - decrease
              descriptors := descs
              frametables := r.1 },
          r.2.1)

/-- C `caml_unregister_frametables`. -/
def caml_unregister_frametables (t : caml_frame_descrs)
    (frametables : Array Frametable) (fuel : Nat) :
    Option (caml_frame_descrs × Array Frametable) :=
  remove_frame_descriptors t frametables fuel

/-- The probe loop of C `caml_find_frame_descr`: from the hash of `pc`,
stop at the first slot that is `NULL` (returning `NULL`: not found) or whose
record's `retaddr` equals `pc` (returning that record).  Fuel-indexed;
`none` is fuel exhaustion (the C loop would still be running). -/
def find_loop (descs : Array Slot) (mask pc : Nat) : Nat → Nat → Option Slot
  | _, 0 => none
  | h, fuel+1 =>
    match descs.getD h none with
    | none => some none
    | some d =>
      if d.retaddr = pc then some (some d)
      else find_loop descs mask pc ((h + 1) &&& mask) fuel

/-- C `caml_find_frame_descr`: the lock-free lookup (the reader counter and
fences have no sequential content).  Result `some r` is the C return value
`r` (`none` = `NULL`); result `none` is fuel exhaustion. -/
def caml_find_frame_descr (t : caml_frame_descrs) (pc : Nat) (fuel : Nat) :
    Option Slot :=
  find_loop t.descriptors t.mask pc (Hash_retaddr pc t.mask) fuel

/-! ## Specification-level definitions used by the theorems -/

/-- Slot index visited at step `i` of a linear probe starting at `h`:
`(h + i) & mask`, i.e. the value of `h` after `i` iterations of
`h = (h+1) & mask`. -/
def probeIdx (mask h i : Nat) : Nat := (h + i) &&& mask

/-- A slot the insertion probe may claim: `NULL` or the tombstone. -/
def freeSlot (s : Slot) : Prop := s = none ∨ s = some dummy_descr

/-- Decidable check that a slot neither terminates nor satisfies the find
loop for key `pc`: it is occupied and its record's address differs from
`pc`. -/
def slotBlocks (pc : Nat) (s : Slot) : Bool :=
  match s with
  | none => false
  | some e => e.retaddr != pc

/-- Number of occupied (live or tombstone) slots. -/
def nonNullCount (descs : Array Slot) : Nat :=
  descs.toList.countP (fun s => s.isSome)

/-- The record `e` is stored in some slot of the array. -/
def holds (descs : Array Slot) (e : frame_descr) : Prop :=
  ∃ j < descs.size, descs.getD j none = some e

/-- Some live (non-tombstone) record with return address `a` is stored. -/
def liveAddr (descs : Array Slot) (a : Nat) : Prop :=
  ∃ e, e ≠ dummy_descr ∧ e.retaddr = a ∧ holds descs e

/-- Every live record occupies at most one slot (records are distinct
memory, and each is inserted at a single index). -/
def HolderUnique (descs : Array Slot) : Prop :=
  ∀ e, e ≠ dummy_descr → ∀ j j', j < descs.size → j' < descs.size →
    descs.getD j none = some e → descs.getD j' none = some e → j = j'

/-- All live records stored in the array belong to `R`. -/
def LiveIn (descs : Array Slot) (R : List frame_descr) : Prop :=
  ∀ e, e ≠ dummy_descr → holds descs e → e ∈ R

/-- The probe sequence for `pc` reaches, after a live prefix that never
matches `pc`, a slot that terminates `caml_find_frame_descr`'s loop with
value `r`: the open-addressing characterization of a lookup result. -/
def Finds (descs : Array Slot) (mask pc : Nat) (r : Slot) : Prop :=
  ∃ i₀ ≤ mask,
    (∀ i < i₀, ∃ e,
      descs.getD (probeIdx mask (Hash_retaddr pc mask) i) none = some e ∧
      e.retaddr ≠ pc) ∧
    descs.getD (probeIdx mask (Hash_retaddr pc mask) i₀) none = r ∧
    (r = none ∨ ∃ e, r = some e ∧ e.retaddr = pc)

/-- Every record of `R` is found (as itself) by a lookup of its address. -/
def AllFound (descs : Array Slot) (mask : Nat) (R : List frame_descr) : Prop :=
  ∀ d ∈ R, Finds descs mask d.retaddr (some d)

/-- Return addresses of genuine descriptors are at least 4096
(`CAMLassert(d->retaddr >= 4096)` in `next_frame_descr`), hence distinct
from `NULL` and from `dummy_descr`'s address. -/
def GoodRecs (R : List frame_descr) : Prop := ∀ d ∈ R, 4096 ≤ d.retaddr

/-- Pairwise distinct return addresses. -/
def DistinctAddrs (R : List frame_descr) : Prop :=
  R.Pairwise (fun d d' => d.retaddr ≠ d'.retaddr)

/-- All records of a frametable list, in iteration order of
`fill_hashtable`. -/
def records (fts : List Frametable) : List frame_descr :=
  (fts.map (·.descrs)).flatten

/-- Structural well-formedness of a registry state relative to the list `R`
of records expected live: the array has `mask + 1` slots with the capacity a
power of two, stored live records come from `R` and occupy unique slots, and
every record of `R` is found by a lookup of its address. -/
def TableOK (t : caml_frame_descrs) (R : List frame_descr) : Prop :=
  t.descriptors.size = t.mask + 1 ∧
  (∃ j, t.mask + 1 = 2 ^ j) ∧
  LiveIn t.descriptors R ∧
  HolderUnique t.descriptors ∧
  AllFound t.descriptors t.mask R

/-- A concrete record whose address and key are `a`. -/
def mk_descr (a : Nat) : frame_descr := { ptr := a, retaddr := a }

/-- Concrete frametables used to instantiate the theorems below. -/
def wit_b1 : Frametable :=
  { id := 10, descrs := [mk_descr 4096, mk_descr 4104, mk_descr 4112, mk_descr 4120] }

def wit_b2 : Frametable :=
  { id := 20, descrs := [mk_descr 4128, mk_descr 4136, mk_descr 4144, mk_descr 4152] }

def wit_ft3 : Frametable :=
  { id := 1, descrs := [mk_descr 100, mk_descr 200, mk_descr 300] }

def wit_ft12 : Frametable :=
  { id := 2, descrs := [mk_descr 400, mk_descr 500, mk_descr 600, mk_descr 700,
      mk_descr 800, mk_descr 900, mk_descr 1000, mk_descr 1100, mk_descr 1200,
      mk_descr 1300, mk_descr 1400, mk_descr 1500] }

def wit_c1 : Frametable := { id := 31, descrs := [mk_descr 8192] }

def wit_c2 : Frametable := { id := 32, descrs := [mk_descr 8200] }

def wit_c3 : Frametable := { id := 33, descrs := [mk_descr 8208] }

/-- Invariant I1 of the source comment: the capacity is a power of two
(the uninitialized capacity-0 state exists only before
`caml_init_frame_descriptors`). -/
def I1 (t : caml_frame_descrs) : Prop := ∃ k, capacity t = 2 ^ k

/-- Invariant I2 of the source comment: `num_descr * 2 <= capacity`. -/
def I2 (t : caml_frame_descrs) : Prop :=
  0 < capacity t → t.num_descr * 2 ≤ (capacity t : Int)

/-! ## Array access lemmas -/

lemma setD_of_size_le {α : Type} (a : Array α) (i : Nat) (v : α)
    (h : a.size ≤ i) : a.setD i v = a := by
  unfold Array.setD
  simp [Nat.not_lt.mpr h]

lemma getD_setD_self {α : Type} (a : Array α) (i : Nat) (v d : α)
    (h : i < a.size) : (a.setD i v).getD i d = v := by
  unfold Array.setD Array.getD
  simp [h]

lemma getD_eq_getElem {α : Type} (a : Array α) (i : Nat) (d : α)
    (h : i < a.size) : a.getD i d = a[i] := by
  unfold Array.getD
  simp [h]

lemma getD_setD_ne {α : Type} (a : Array α) (i j : Nat) (v d : α)
    (h : i ≠ j) : (a.setD i v).getD j d = a.getD j d := by
  by_cases hi : i < a.size
  · by_cases hj : j < a.size
    · rw [getD_eq_getElem _ j d (by rw [Array.size_setD]; exact hj),
        getD_eq_getElem a j d hj]
      unfold Array.setD
      split
      · exact Array.get_set_ne a ⟨i, hi⟩ v hj h
      · rename_i hcon
        exact absurd hi hcon
    · unfold Array.getD
      simp [Array.size_setD, hj]
  · rw [setD_of_size_le a i v (Nat.not_lt.mp hi)]

lemma toList_setD {α : Type} (a : Array α) (i : Nat) (v : α)
    (h : i < a.size) : (a.setD i v).toList = a.toList.set i v := by
  unfold Array.setD
  simp [h, Array.toList_set]

lemma nonNullCount_setD_le (a : Array Slot) (i : Nat) (v : Slot) :
    nonNullCount (a.setD i v) ≤ nonNullCount a + 1 := by
  by_cases hi : i < a.size
  · unfold nonNullCount
    rw [toList_setD a i v hi]
    rw [List.countP_set _ _ _ _ (by simpa using hi)]
    split_ifs <;> omega
  · rw [setD_of_size_le a i v (Nat.not_lt.mp hi)]
    omega

lemma countP_isSome_set (l : List Slot) (i : Nat) (v : Slot)
    (hold : (l.getD i none).isSome) (hnew : v.isSome) :
    (l.set i v).countP (fun s => s.isSome) = l.countP (fun s => s.isSome) := by
  induction l generalizing i with
  | nil => simp at hold
  | cons x xs ih =>
    cases i with
    | zero =>
      simp only [List.set]
      rw [List.countP_cons, List.countP_cons]
      have hx : x.isSome := hold
      rw [hx, hnew]
    | succ n =>
      simp only [List.set]
      rw [List.countP_cons, List.countP_cons]
      have hrec : (xs.getD n none).isSome := hold
      rw [ih n hrec]

lemma nonNullCount_setD_some (a : Array Slot) (i : Nat) (v : Slot)
    (hi : i < a.size) (hold : (a.getD i none).isSome) (hnew : v.isSome) :
    nonNullCount (a.setD i v) = nonNullCount a := by
  unfold nonNullCount
  rw [toList_setD a i v hi]
  apply countP_isSome_set
  · have hsame : a.toList.getD i none = a.getD i none := by
      rw [getD_eq_getElem a i none hi, List.getD_eq_getElem?_getD,
        List.getElem?_eq_getElem (by simpa using hi)]
      simp [Array.getElem_toList]
    rw [hsame]
    exact hold
  · exact hnew

lemma exists_null_of_nonNullCount_lt (a : Array Slot)
    (h : nonNullCount a < a.size) : ∃ j < a.size, a.getD j none = none := by
  unfold nonNullCount at h
  have hlen : a.toList.length = a.size := by simp
  by_contra hc
  push_neg at hc
  have : a.toList.countP (fun s => s.isSome) = a.toList.length := by
    rw [List.countP_eq_length]
    intro s hs
    obtain ⟨j, hj, rfl⟩ := List.mem_iff_getElem.mp hs
    have hjs : j < a.size := by omega
    have : a.toList[j] = a.getD j none := by
      rw [getD_eq_getElem a j none hjs, Array.getElem_toList]
    rw [this]
    cases hval : a.getD j none with
    | none => exact absurd hval (hc j hjs)
    | some e => rfl
  omega

lemma holds_setD (a : Array Slot) (t : Nat) (v : Slot) (e : frame_descr)
    (h : holds (a.setD t v) e) : v = some e ∨ holds a e := by
  obtain ⟨j, hj, hget⟩ := h
  rw [Array.size_setD] at hj
  by_cases hjt : t = j
  · subst hjt
    rw [getD_setD_self a t v none hj] at hget
    exact Or.inl hget
  · rw [getD_setD_ne a t j v none hjt] at hget
    exact Or.inr ⟨j, hj, hget⟩

/-! ## Probe-sequence arithmetic -/

lemma and_mask_eq_mod {mask k : Nat} (hpow : mask + 1 = 2 ^ k) (x : Nat) :
    x &&& mask = x % (mask + 1) := by
  have hm : mask = 2 ^ k - 1 := by omega
  rw [hm, Nat.and_pow_two_sub_one_eq_mod]
  congr 1
  omega

lemma step_le {mask k : Nat} (hpow : mask + 1 = 2 ^ k) (h : Nat) :
    (h + 1) &&& mask ≤ mask := by
  rw [and_mask_eq_mod hpow]
  have := Nat.mod_lt (h + 1) (show 0 < mask + 1 by omega)
  omega

lemma probeIdx_le {mask k : Nat} (hpow : mask + 1 = 2 ^ k) (h i : Nat) :
    probeIdx mask h i ≤ mask := by
  unfold probeIdx
  rw [and_mask_eq_mod hpow]
  have := Nat.mod_lt (h + i) (show 0 < mask + 1 by omega)
  omega

lemma probeIdx_zero {mask k : Nat} (hpow : mask + 1 = 2 ^ k) {h : Nat}
    (hh : h ≤ mask) : probeIdx mask h 0 = h := by
  unfold probeIdx
  rw [and_mask_eq_mod hpow, Nat.add_zero]
  exact Nat.mod_eq_of_lt (by omega)

lemma probeIdx_succ {mask k : Nat} (hpow : mask + 1 = 2 ^ k) (h i : Nat) :
    probeIdx mask h (i + 1) = probeIdx mask ((h + 1) &&& mask) i := by
  unfold probeIdx
  rw [and_mask_eq_mod hpow, and_mask_eq_mod hpow, and_mask_eq_mod hpow,
    Nat.mod_add_mod]
  congr 1
  omega

lemma probeIdx_inj {mask k : Nat} (hpow : mask + 1 = 2 ^ k) {h i j : Nat}
    (hi : i ≤ mask) (hj : j ≤ mask)
    (he : probeIdx mask h i = probeIdx mask h j) : i = j := by
  unfold probeIdx at he
  rw [and_mask_eq_mod hpow, and_mask_eq_mod hpow] at he
  have h1 : h + i ≡ h + j [MOD mask + 1] := he
  have h2 : i ≡ j [MOD mask + 1] := Nat.ModEq.add_left_cancel' h h1
  rw [Nat.ModEq, Nat.mod_eq_of_lt (by omega), Nat.mod_eq_of_lt (by omega)] at h2
  exact h2

lemma exists_probeIdx_eq {mask k : Nat} (hpow : mask + 1 = 2 ^ k) {h j : Nat}
    (hh : h ≤ mask) (hj : j ≤ mask) : ∃ i ≤ mask, probeIdx mask h i = j := by
  refine ⟨(j + (mask + 1) - h) % (mask + 1), ?_, ?_⟩
  · have := Nat.mod_lt (j + (mask + 1) - h) (show 0 < mask + 1 by omega)
    omega
  · unfold probeIdx
    rw [and_mask_eq_mod hpow]
    have h1 : (h + (j + (mask + 1) - h) % (mask + 1)) % (mask + 1)
        = (h + (j + (mask + 1) - h)) % (mask + 1) := by
      rw [Nat.add_comm h, Nat.mod_add_mod, Nat.add_comm]
    have h2 : h + (j + (mask + 1) - h) = j + (mask + 1) := by omega
    rw [h1, h2, Nat.add_mod_right]
    exact Nat.mod_eq_of_lt (by omega)

lemma exists_first_probe {mask k : Nat} (hpow : mask + 1 = 2 ^ k)
    (P : Nat → Prop) {h j : Nat} (hh : h ≤ mask) (hj : j ≤ mask) (hP : P j) :
    ∃ i₀ ≤ mask, P (probeIdx mask h i₀) ∧ ∀ i < i₀, ¬ P (probeIdx mask h i) := by
  classical
  obtain ⟨i, hi, hieq⟩ := exists_probeIdx_eq hpow hh hj
  have hex : ∃ n, P (probeIdx mask h n) := ⟨i, hieq ▸ hP⟩
  refine ⟨Nat.find hex, ?_, Nat.find_spec hex, fun m hm => Nat.find_min hex hm⟩
  exact le_trans (Nat.find_le (hieq ▸ hP)) hi

/-! ## Characterization of the three probe loops -/

lemma find_loop_stopAt {descs : Array Slot} {mask k pc : Nat}
    (hpow : mask + 1 = 2 ^ k) {i₀ : Nat} :
    ∀ h fuel, h ≤ mask → i₀ < fuel →
    (∀ i < i₀, ∃ e,
      descs.getD (probeIdx mask h i) none = some e ∧ e.retaddr ≠ pc) →
    (descs.getD (probeIdx mask h i₀) none = none ∨
      ∃ e, descs.getD (probeIdx mask h i₀) none = some e ∧ e.retaddr = pc) →
    find_loop descs mask pc h fuel =
      some (descs.getD (probeIdx mask h i₀) none) := by
  induction i₀ with
  | zero =>
    intro h fuel hh hfu hpref hstop
    cases fuel with
    | zero => omega
    | succ f =>
      rw [probeIdx_zero hpow hh] at hstop ⊢
      rcases hstop with h0 | ⟨e, he, hpc⟩
      · simp [find_loop, h0]
      · simp [find_loop, he, hpc]
  | succ i ih =>
    intro h fuel hh hfu hpref hstop
    cases fuel with
    | zero => omega
    | succ f =>
      obtain ⟨e, he, hne⟩ := hpref 0 (Nat.succ_pos _)
      rw [probeIdx_zero hpow hh] at he
      have hstep : find_loop descs mask pc h (f + 1) =
          find_loop descs mask pc ((h + 1) &&& mask) f := by
        simp [find_loop, he, hne]
      rw [hstep, probeIdx_succ hpow h i]
      rw [probeIdx_succ hpow h i] at hstop
      refine ih ((h + 1) &&& mask) f (step_le hpow h) (by omega) ?_ hstop
      intro i' hi'
      have := hpref (i' + 1) (by omega)
      rwa [probeIdx_succ hpow h i'] at this

lemma probe_free_stopAt {descs : Array Slot} {mask k : Nat}
    (hpow : mask + 1 = 2 ^ k) {i₀ : Nat} :
    ∀ h fuel, h ≤ mask → i₀ < fuel →
    (∀ i < i₀, ∃ e,
      descs.getD (probeIdx mask h i) none = some e ∧ e ≠ dummy_descr) →
    (descs.getD (probeIdx mask h i₀) none = none ∨
      descs.getD (probeIdx mask h i₀) none = some dummy_descr) →
    probe_free descs mask h fuel = some (probeIdx mask h i₀) := by
  induction i₀ with
  | zero =>
    intro h fuel hh hfu hpref hstop
    cases fuel with
    | zero => omega
    | succ f =>
      rw [probeIdx_zero hpow hh] at hstop ⊢
      rcases hstop with h0 | h0
      · simp [probe_free, h0]
      · simp [probe_free, h0]
  | succ i ih =>
    intro h fuel hh hfu hpref hstop
    cases fuel with
    | zero => omega
    | succ f =>
      obtain ⟨e, he, hne⟩ := hpref 0 (Nat.succ_pos _)
      rw [probeIdx_zero hpow hh] at he
      have hstep : probe_free descs mask h (f + 1) =
          probe_free descs mask ((h + 1) &&& mask) f := by
        simp [probe_free, he, hne]
      rw [hstep, probeIdx_succ hpow h i]
      rw [probeIdx_succ hpow h i] at hstop
      refine ih ((h + 1) &&& mask) f (step_le hpow h) (by omega) ?_ hstop
      intro i' hi'
      have := hpref (i' + 1) (by omega)
      rwa [probeIdx_succ hpow h i'] at this

lemma invalid_entry_loop_stopAt {descs : Array Slot} {mask k : Nat}
    {e : frame_descr} (hpow : mask + 1 = 2 ^ k) {i₀ : Nat} :
    ∀ h fuel, h ≤ mask → i₀ < fuel →
    (∀ i < i₀, descs.getD (probeIdx mask h i) none ≠ some e) →
    descs.getD (probeIdx mask h i₀) none = some e →
    invalid_entry_loop descs mask e h fuel =
      some (descs.setD (probeIdx mask h i₀) (some dummy_descr)) := by
  induction i₀ with
  | zero =>
    intro h fuel hh hfu hpref hstop
    cases fuel with
    | zero => omega
    | succ f =>
      rw [probeIdx_zero hpow hh] at hstop ⊢
      simp [invalid_entry_loop, hstop]
  | succ i ih =>
    intro h fuel hh hfu hpref hstop
    cases fuel with
    | zero => omega
    | succ f =>
      have hne := hpref 0 (Nat.succ_pos _)
      rw [probeIdx_zero hpow hh] at hne
      have hstep : invalid_entry_loop descs mask e h (f + 1) =
          invalid_entry_loop descs mask e ((h + 1) &&& mask) f := by
        simp only [invalid_entry_loop]
        rw [if_neg hne]
      rw [hstep, probeIdx_succ hpow h i]
      rw [probeIdx_succ hpow h i] at hstop
      refine ih ((h + 1) &&& mask) f (step_le hpow h) (by omega) ?_ hstop
      intro i' hi'
      have := hpref (i' + 1) (by omega)
      rwa [probeIdx_succ hpow h i'] at this

lemma find_loop_diverges {descs : Array Slot} {mask k pc : Nat}
    (hpow : mask + 1 = 2 ^ k)
    (hall : ∀ j, j ≤ mask → slotBlocks pc (descs.getD j none) = true) :
    ∀ fuel h, h ≤ mask → find_loop descs mask pc h fuel = none := by
  intro fuel
  induction fuel with
  | zero => intro h _; rfl
  | succ f ih =>
    intro h hh
    have hblock := hall h hh
    unfold slotBlocks at hblock
    cases hval : descs.getD h none with
    | none => rw [hval] at hblock; simp at hblock
    | some e =>
      rw [hval] at hblock
      have hne : e.retaddr ≠ pc := by simpa using hblock
      have : find_loop descs mask pc h (f + 1) =
          find_loop descs mask pc ((h + 1) &&& mask) f := by
        simp [find_loop, hval, hne]
      rw [this]
      exact ih ((h + 1) &&& mask) (step_le hpow h)

/-! ## Lookup results from the `Finds` characterization -/

lemma Hash_le {mask k : Nat} (hpow : mask + 1 = 2 ^ k) (addr : Nat) :
    Hash_retaddr addr mask ≤ mask := by
  unfold Hash_retaddr
  rw [and_mask_eq_mod hpow]
  have := Nat.mod_lt (addr >>> 3) (show 0 < mask + 1 by omega)
  omega

lemma find_loop_of_Finds {descs : Array Slot} {mask k pc : Nat} {r : Slot}
    (hpow : mask + 1 = 2 ^ k) (hF : Finds descs mask pc r) {fuel : Nat}
    (hfuel : mask < fuel) :
    find_loop descs mask pc (Hash_retaddr pc mask) fuel = some r := by
  obtain ⟨i₀, hi₀, hpref, hstop, hr⟩ := hF
  have := find_loop_stopAt hpow (Hash_retaddr pc mask) fuel
    (Hash_le hpow pc) (by omega) hpref ?_
  · rw [hstop] at this
    exact this
  · rcases hr with rfl | ⟨e, rfl, hpc⟩
    · exact Or.inl hstop
    · exact Or.inr ⟨e, hstop, hpc⟩

lemma caml_find_of_Finds {t : caml_frame_descrs} {k pc : Nat} {r : Slot}
    (hpow : t.mask + 1 = 2 ^ k) (hF : Finds t.descriptors t.mask pc r)
    {fuel : Nat} (hfuel : t.mask < fuel) :
    caml_find_frame_descr t pc fuel = some r := by
  unfold caml_find_frame_descr
  exact find_loop_of_Finds hpow hF hfuel

lemma Finds_holds {descs : Array Slot} {mask k pc : Nat} {e : frame_descr}
    (hpow : mask + 1 = 2 ^ k) (hsz : descs.size = mask + 1)
    (hF : Finds descs mask pc (some e)) :
    ∃ j < descs.size, descs.getD j none = some e := by
  obtain ⟨i₀, hi₀, _, hstop, _⟩ := hF
  refine ⟨probeIdx mask (Hash_retaddr pc mask) i₀, ?_, hstop⟩
  have := probeIdx_le hpow (Hash_retaddr pc mask) i₀
  omega

lemma good_ne_dummy {d : frame_descr} (h : 4096 ≤ d.retaddr) :
    d ≠ dummy_descr := by
  intro he
  rw [he] at h
  simp [dummy_descr] at h

lemma Finds_setD_free {descs : Array Slot} {mask k pc : Nat}
    {e : frame_descr} (hpow : mask + 1 = 2 ^ k)
    (hF : Finds descs mask pc (some e)) (he : e ≠ dummy_descr)
    {t : Nat} (htfree : freeSlot (descs.getD t none))
    {d : frame_descr} (hd : d.retaddr ≠ pc) :
    Finds (descs.setD t (some d)) mask pc (some e) := by
  obtain ⟨i₀, hi₀, hpref, hstop, hr⟩ := hF
  by_cases ht : t < descs.size
  · refine ⟨i₀, hi₀, ?_, ?_, hr⟩
    · intro i hi
      obtain ⟨e', he', hne'⟩ := hpref i hi
      by_cases hit : probeIdx mask (Hash_retaddr pc mask) i = t
      · rw [hit] at he'
        rcases htfree with h0 | h0
        · rw [h0] at he'
          exact absurd he' (by simp)
        · rw [hit, getD_setD_self descs t (some d) none ht]
          exact ⟨d, rfl, hd⟩
      · rw [getD_setD_ne descs t _ (some d) none (fun hc => hit hc.symm)]
        exact ⟨e', he', hne'⟩
    · have hit : probeIdx mask (Hash_retaddr pc mask) i₀ ≠ t := by
        intro hc
        rw [hc] at hstop
        rcases htfree with h0 | h0
        · rw [h0] at hstop
          exact absurd hstop (by simp)
        · rw [h0] at hstop
          exact he (by injection hstop with h; exact h.symm ▸ rfl)
      rw [getD_setD_ne descs t _ (some d) none (fun hc => hit hc.symm)]
      exact hstop
  · rw [setD_of_size_le descs t (some d) (Nat.not_lt.mp ht)]
    exact ⟨i₀, hi₀, hpref, hstop, hr⟩

lemma Finds_setD_dummy {descs : Array Slot} {mask k pc : Nat}
    {e : frame_descr} (hpow : mask + 1 = 2 ^ k)
    (hF : Finds descs mask pc (some e))
    {t : Nat} (ht : descs.getD t none ≠ some e)
    (hpc : dummy_descr.retaddr ≠ pc) :
    Finds (descs.setD t (some dummy_descr)) mask pc (some e) := by
  obtain ⟨i₀, hi₀, hpref, hstop, hr⟩ := hF
  by_cases htsz : t < descs.size
  · refine ⟨i₀, hi₀, ?_, ?_, hr⟩
    · intro i hi
      obtain ⟨e', he', hne'⟩ := hpref i hi
      by_cases hit : probeIdx mask (Hash_retaddr pc mask) i = t
      · rw [hit, getD_setD_self descs t (some dummy_descr) none htsz]
        exact ⟨dummy_descr, rfl, hpc⟩
      · rw [getD_setD_ne descs t _ (some dummy_descr) none
          (fun hc => hit hc.symm)]
        exact ⟨e', he', hne'⟩
    · have hit : probeIdx mask (Hash_retaddr pc mask) i₀ ≠ t := by
        intro hc
        rw [hc] at hstop
        exact ht hstop
      rw [getD_setD_ne descs t _ (some dummy_descr) none
        (fun hc => hit hc.symm)]
      exact hstop
  · rw [setD_of_size_le descs t (some dummy_descr) (Nat.not_lt.mp htsz)]
    exact ⟨i₀, hi₀, hpref, hstop, hr⟩

lemma Finds_none_of_absent {descs : Array Slot} {mask k pc : Nat}
    (hpow : mask + 1 = 2 ^ k) (hsz : descs.size = mask + 1)
    (hnull : ∃ j < descs.size, descs.getD j none = none)
    (habsent : ¬ liveAddr descs pc) (hpc : dummy_descr.retaddr ≠ pc) :
    Finds descs mask pc none := by
  obtain ⟨j, hj, hjnull⟩ := hnull
  have hstop : (fun u => descs.getD u none = none ∨
      ∃ e, descs.getD u none = some e ∧ e.retaddr = pc) j := Or.inl hjnull
  obtain ⟨i₀, hi₀, hP, hmin⟩ := exists_first_probe hpow
    (fun u => descs.getD u none = none ∨
      ∃ e, descs.getD u none = some e ∧ e.retaddr = pc)
    (Hash_le hpow pc) (by omega : j ≤ mask) hstop
  have hstop' : descs.getD (probeIdx mask (Hash_retaddr pc mask) i₀) none
      = none := by
    rcases hP with h0 | ⟨e, he, hepc⟩
    · exact h0
    · exfalso
      by_cases hed : e = dummy_descr
      · rw [hed] at hepc
        exact hpc hepc
      · refine habsent ⟨e, hed, hepc, ?_⟩
        refine ⟨probeIdx mask (Hash_retaddr pc mask) i₀, ?_, he⟩
        have := probeIdx_le hpow (Hash_retaddr pc mask) i₀
        omega
  refine ⟨i₀, hi₀, ?_, hstop', Or.inl rfl⟩
  intro i hi
  have hnp := hmin i hi
  push_neg at hnp
  obtain ⟨h1, h2⟩ := hnp
  cases hval : descs.getD (probeIdx mask (Hash_retaddr pc mask) i) none with
  | none => exact absurd hval h1
  | some e' => exact ⟨e', rfl, fun hc => (h2 e' hval) hc⟩

/-! ## Effect of a single insertion -/

lemma insert_descr_spec {descs : Array Slot} {mask k : Nat}
    (hpow : mask + 1 = 2 ^ k) (hsz : descs.size = mask + 1)
    {d : frame_descr} (hfresh : ¬ liveAddr descs d.retaddr)
    (hroom : nonNullCount descs < mask + 1) :
    ∃ t ≤ mask, freeSlot (descs.getD t none) ∧
      insert_descr mask descs d (mask + 1) = descs.setD t (some d) ∧
      Finds (descs.setD t (some d)) mask d.retaddr (some d) := by
  obtain ⟨j, hj, hjnull⟩ := exists_null_of_nonNullCount_lt descs (by omega)
  obtain ⟨i₀, hi₀, hP, hmin⟩ := exists_first_probe hpow
    (fun u => freeSlot (descs.getD u none))
    (Hash_le hpow d.retaddr) (show j ≤ mask by omega) (Or.inl hjnull)
  have ht : probeIdx mask (Hash_retaddr d.retaddr mask) i₀ ≤ mask :=
    probeIdx_le hpow (Hash_retaddr d.retaddr mask) i₀
  have htsz : probeIdx mask (Hash_retaddr d.retaddr mask) i₀ < descs.size := by
    omega
  have hpref : ∀ i < i₀, ∃ e,
      descs.getD (probeIdx mask (Hash_retaddr d.retaddr mask) i) none = some e ∧
      e ≠ dummy_descr := by
    intro i hi
    have hnp := hmin i hi
    unfold freeSlot at hnp
    push_neg at hnp
    obtain ⟨h1, h2⟩ := hnp
    cases hval : descs.getD (probeIdx mask (Hash_retaddr d.retaddr mask) i) none with
    | none => exact absurd hval h1
    | some e' => exact ⟨e', rfl, fun hc => h2 (by rw [hval, hc])⟩
  have hprobe : probe_free descs mask (Hash_retaddr d.retaddr mask) (mask + 1)
      = some (probeIdx mask (Hash_retaddr d.retaddr mask) i₀) :=
    probe_free_stopAt hpow (Hash_retaddr d.retaddr mask) (mask + 1)
      (Hash_le hpow d.retaddr) (by omega) hpref hP
  refine ⟨probeIdx mask (Hash_retaddr d.retaddr mask) i₀, ht, hP, ?_, ?_⟩
  · unfold insert_descr
    rw [hprobe]
  · refine ⟨i₀, hi₀, ?_, ?_, Or.inr ⟨d, rfl, rfl⟩⟩
    · intro i hi
      obtain ⟨e, he, hed⟩ := hpref i hi
      have hne : probeIdx mask (Hash_retaddr d.retaddr mask) i ≠
          probeIdx mask (Hash_retaddr d.retaddr mask) i₀ := by
        intro hc
        have := probeIdx_inj hpow
          (le_trans (le_of_lt hi) hi₀) hi₀ hc
        omega
      rw [getD_setD_ne descs _ _ (some d) none (fun hc => hne hc.symm)]
      refine ⟨e, he, ?_⟩
      intro hc
      refine hfresh ⟨e, hed, hc, probeIdx mask (Hash_retaddr d.retaddr mask) i,
        ?_, he⟩
      have := probeIdx_le hpow (Hash_retaddr d.retaddr mask) i
      omega
    · rw [getD_setD_self descs _ (some d) none htsz]

/-! ## Effect of inserting a list of records -/

lemma insert_fold_spec {mask k : Nat} (hpow : mask + 1 = 2 ^ k) :
    ∀ (L : List frame_descr) (descs : Array Slot) (R : List frame_descr),
    descs.size = mask + 1 →
    GoodRecs R → GoodRecs L →
    DistinctAddrs (R ++ L) →
    LiveIn descs R →
    HolderUnique descs →
    AllFound descs mask R →
    nonNullCount descs + L.length ≤ mask + 1 →
    ∀ out, out = L.foldl (fun a d => insert_descr mask a d (mask + 1)) descs →
    out.size = mask + 1 ∧
    nonNullCount out ≤ nonNullCount descs + L.length ∧
    LiveIn out (R ++ L) ∧
    HolderUnique out ∧
    AllFound out mask (R ++ L) := by
  intro L
  induction L with
  | nil =>
    intro descs R hsz hgR hgL hdis hlive huniq hfound hroom out hout
    rw [hout]
    simp only [List.foldl_nil, List.append_nil]
    exact ⟨hsz, by omega, hlive, huniq, hfound⟩
  | cons d L' ih =>
    intro descs R hsz hgR hgL hdis hlive huniq hfound hroom out hout
    have hgd : 4096 ≤ d.retaddr := hgL d (List.mem_cons_self d L')
    have hdnd : d ≠ dummy_descr := good_ne_dummy hgd
    have hcross : ∀ r ∈ R, ∀ x ∈ d :: L', r.retaddr ≠ x.retaddr :=
      (List.pairwise_append.mp hdis).2.2
    have hfresh : ¬ liveAddr descs d.retaddr := by
      rintro ⟨e, hed, her, hholds⟩
      have heR : e ∈ R := hlive e hed hholds
      exact hcross e heR d (List.mem_cons_self d L') her
    obtain ⟨t, ht, htfree, heq, hFd⟩ :=
      insert_descr_spec hpow hsz hfresh (by simp only [List.length_cons] at hroom; omega)
    have htsz : t < descs.size := by omega
    have hsz₁ : (insert_descr mask descs d (mask + 1)).size = mask + 1 := by
      rw [heq, Array.size_setD, hsz]
    have hnn₁ : nonNullCount (insert_descr mask descs d (mask + 1)) ≤
        nonNullCount descs + 1 := by
      rw [heq]
      exact nonNullCount_setD_le descs t (some d)
    have hlive₁ : LiveIn (insert_descr mask descs d (mask + 1)) (R ++ [d]) := by
      intro e hed hholds
      rw [heq] at hholds
      rcases holds_setD descs t (some d) e hholds with hc | hc
      · have : e = d := (Option.some.inj hc).symm
        rw [this]
        exact List.mem_append.mpr (Or.inr (List.mem_singleton.mpr rfl))
      · exact List.mem_append.mpr (Or.inl (hlive e hed hc))
    have huniq₁ : HolderUnique (insert_descr mask descs d (mask + 1)) := by
      intro e hed j j' hjs hjs' hg hg'
      rw [hsz₁] at hjs hjs'
      rw [heq] at hg hg'
      by_cases hjt : j = t
      · by_cases hj't : j' = t
        · rw [hjt, hj't]
        · exfalso
          rw [hjt, getD_setD_self descs t (some d) none htsz] at hg
          have hed' : d = e := Option.some.inj hg
          rw [getD_setD_ne descs t j' (some d) none
            (fun hc => hj't hc.symm)] at hg'
          have hholds : holds descs e := ⟨j', by omega, hg'⟩
          have heR : e ∈ R := hlive e hed hholds
          exact hcross e heR d (List.mem_cons_self d L') (by rw [← hed'])
      · by_cases hj't : j' = t
        · exfalso
          rw [hj't, getD_setD_self descs t (some d) none htsz] at hg'
          have hed' : d = e := Option.some.inj hg'
          rw [getD_setD_ne descs t j (some d) none
            (fun hc => hjt hc.symm)] at hg
          have hholds : holds descs e := ⟨j, by omega, hg⟩
          have heR : e ∈ R := hlive e hed hholds
          exact hcross e heR d (List.mem_cons_self d L') (by rw [← hed'])
        · rw [getD_setD_ne descs t j (some d) none
            (fun hc => hjt hc.symm)] at hg
          rw [getD_setD_ne descs t j' (some d) none
            (fun hc => hj't hc.symm)] at hg'
          exact huniq e hed j j' (by omega) (by omega) hg hg'
    have hfound₁ : AllFound (insert_descr mask descs d (mask + 1)) mask
        (R ++ [d]) := by
      intro x hx
      rcases List.mem_append.mp hx with hxR | hxd
      · have hxnd : x ≠ dummy_descr := good_ne_dummy (hgR x hxR)
        have hdx : d.retaddr ≠ x.retaddr :=
          fun hc => hcross x hxR d (List.mem_cons_self d L') hc.symm
        rw [heq]
        exact Finds_setD_free hpow (hfound x hxR) hxnd htfree hdx
      · have hxd' : x = d := List.mem_singleton.mp hxd
        rw [hxd', heq]
        exact hFd
    have hassoc : (R ++ [d]) ++ L' = R ++ d :: L' := by
      rw [List.append_assoc, List.singleton_append]
    have hgR₁ : GoodRecs (R ++ [d]) := by
      intro x hx
      rcases List.mem_append.mp hx with h | h
      · exact hgR x h
      · rw [List.mem_singleton.mp h]
        exact hgd
    have hgL' : GoodRecs L' := fun x hx => hgL x (List.mem_cons_of_mem d hx)
    have hdis₁ : DistinctAddrs ((R ++ [d]) ++ L') := by
      unfold DistinctAddrs
      rw [hassoc]
      exact hdis
    have hroom₁ : nonNullCount (insert_descr mask descs d (mask + 1)) +
        L'.length ≤ mask + 1 := by
      simp only [List.length_cons] at hroom
      omega
    have hout' : out = L'.foldl (fun a x => insert_descr mask a x (mask + 1))
        (insert_descr mask descs d (mask + 1)) := by
      rw [hout, List.foldl_cons]
    obtain ⟨o1, o2, o3, o4, o5⟩ := ih (insert_descr mask descs d (mask + 1))
      (R ++ [d]) hsz₁ hgR₁ hgL' hdis₁ hlive₁ huniq₁ hfound₁ hroom₁ out hout'
    refine ⟨o1, ?_, ?_, o4, ?_⟩
    · simp only [List.length_cons]
      omega
    · rw [← hassoc]
      exact o3
    · rw [← hassoc]
      exact o5

/-! ## Records of a frametable list; `fill_hashtable` as a fold -/

lemma records_cons (ft : Frametable) (fts : List Frametable) :
    records (ft :: fts) = ft.descrs ++ records fts := by
  simp [records]

lemma records_append (a b : List Frametable) :
    records (a ++ b) = records a ++ records b := by
  simp [records]

lemma count_descriptors_aux (l : List Frametable) :
    ∀ n, l.foldl (fun n ft => n + frametable_len ft) n =
      n + (records l).length := by
  induction l with
  | nil => intro n; simp [records]
  | cons ft fts ih =>
    intro n
    rw [List.foldl_cons, ih, records_cons]
    simp [frametable_len]
    omega

lemma count_descriptors_eq_length (l : List Frametable) :
    count_descriptors l = (records l).length := by
  unfold count_descriptors
  rw [count_descriptors_aux l 0]
  omega

lemma fill_hashtable_eq_fold (mask : Nat) (descs : Array Slot)
    (fts : List Frametable) :
    fill_hashtable mask descs fts =
      (records fts).foldl (fun a d => insert_descr mask a d (mask + 1))
        descs := by
  induction fts generalizing descs with
  | nil => rfl
  | cons ft fts ih =>
    have h1 : fill_hashtable mask descs (ft :: fts) =
        fill_hashtable mask
          (ft.descrs.foldl (fun a d => insert_descr mask a d (mask + 1)) descs)
          fts := rfl
    rw [h1, ih, records_cons, List.foldl_append]

/-! ## The table-sizing loop -/

lemma grow_tblsize_self_le (n : Nat) :
    ∀ fuel t, t ≤ grow_tblsize n t fuel := by
  intro fuel
  induction fuel with
  | zero => intro t; rfl
  | succ f ih =>
    intro t
    rw [grow_tblsize]
    split
    · have := ih (2 * t)
      omega
    · omega

lemma grow_tblsize_ge (n : Nat) :
    ∀ fuel t, 0 < t → 2 * n ≤ t + fuel → 2 * n ≤ grow_tblsize n t fuel := by
  intro fuel
  induction fuel with
  | zero =>
    intro t ht hf
    rw [grow_tblsize]
    omega
  | succ f ih =>
    intro t ht hf
    rw [grow_tblsize]
    split
    · exact ih (2 * t) (by omega) (by omega)
    · omega

lemma grow_tblsize_pow (n : Nat) :
    ∀ fuel t, (∃ j, t = 2 ^ j) → ∃ j, grow_tblsize n t fuel = 2 ^ j := by
  intro fuel
  induction fuel with
  | zero =>
    intro t hp
    exact hp
  | succ f ih =>
    intro t hp
    rw [grow_tblsize]
    split
    · obtain ⟨j, hj⟩ := hp
      exact ih (2 * t) ⟨j + 1, by rw [hj, Nat.pow_succ]; omega⟩
    · exact hp

lemma grow_tblsize_min (n : Nat) :
    ∀ fuel t, (∃ j, t = 2 ^ j) →
    ∀ m, t ≤ 2 ^ m → 2 * n ≤ 2 ^ m → grow_tblsize n t fuel ≤ 2 ^ m := by
  intro fuel
  induction fuel with
  | zero =>
    intro t hp m h1 h2
    exact h1
  | succ f ih =>
    intro t hp m h1 h2
    rw [grow_tblsize]
    split
    · rename_i h
      obtain ⟨j, hj⟩ := hp
      have hjm : j < m := by
        have hlt : (2 : Nat) ^ j < 2 ^ m := by omega
        exact (Nat.pow_lt_pow_iff_right (by omega)).mp hlt
      have h2t : 2 * t ≤ 2 ^ m := by
        have hle : (2 : Nat) ^ (j + 1) ≤ 2 ^ m :=
          Nat.pow_le_pow_right (by omega) (by omega)
        rw [Nat.pow_succ] at hle
        omega
      exact ih (2 * t) ⟨j + 1, by rw [hj, Nat.pow_succ]; omega⟩ m h2t h2
    · exact h1

/-! ## Correctness of a full rebuild -/

lemma mkArray_getD (n j : Nat) : (mkArray n (none : Slot)).getD j none = none := by
  by_cases hj : j < (mkArray n (none : Slot)).size
  · rw [getD_eq_getElem _ j none hj]
    simp
  · unfold Array.getD
    simp only [dif_neg hj]

lemma nonNullCount_mkArray (n : Nat) :
    nonNullCount (mkArray n (none : Slot)) = 0 := by
  unfold nonNullCount
  rw [List.countP_eq_zero]
  intro s hs
  have : s = none := by
    have := List.eq_of_mem_replicate (by simpa using hs)
    exact this
  rw [this]
  simp

lemma realloc_spec (fts : List Frametable)
    (hgood : GoodRecs (records fts)) (hdis : DistinctAddrs (records fts)) :
    TableOK (realloc_frame_descriptors fts) (records fts) ∧
    4 ≤ capacity (realloc_frame_descriptors fts) ∧
    2 * (records fts).length ≤ capacity (realloc_frame_descriptors fts) ∧
    (realloc_frame_descriptors fts).num_descr = ((records fts).length : Int) ∧
    (realloc_frame_descriptors fts).frametables = fts ∧
    nonNullCount (realloc_frame_descriptors fts).descriptors ≤
      (records fts).length := by
  have hcnt := count_descriptors_eq_length fts
  set n := count_descriptors fts with hn
  set T := grow_tblsize n 4 (2 * n + 2) with hT
  have hT4 : 4 ≤ T := grow_tblsize_self_le n (2 * n + 2) 4
  have hTge : 2 * n ≤ T := grow_tblsize_ge n (2 * n + 2) 4 (by omega) (by omega)
  have hTpow : ∃ j, T = 2 ^ j := grow_tblsize_pow n (2 * n + 2) 4 ⟨2, rfl⟩
  obtain ⟨j, hj⟩ := hTpow
  have hmask : T - 1 + 1 = T := by omega
  have hpow : T - 1 + 1 = 2 ^ j := by omega
  have hsz0 : (mkArray T (none : Slot)).size = T - 1 + 1 := by
    rw [hmask]
    simp
  have hlive0 : LiveIn (mkArray T (none : Slot)) [] := by
    intro e he hholds
    obtain ⟨u, hu, hget⟩ := hholds
    rw [mkArray_getD] at hget
    exact absurd hget (by simp)
  have huniq0 : HolderUnique (mkArray T (none : Slot)) := by
    intro e he u u' hu hu' hget hget'
    rw [mkArray_getD] at hget
    exact absurd hget (by simp)
  have hfound0 : AllFound (mkArray T (none : Slot)) (T - 1) [] := by
    intro d hd
    exact absurd hd (List.not_mem_nil d)
  have hroom0 : nonNullCount (mkArray T (none : Slot)) +
      (records fts).length ≤ T - 1 + 1 := by
    rw [nonNullCount_mkArray, hmask]
    omega
  have hdis0 : DistinctAddrs ([] ++ records fts) := by
    simpa using hdis
  obtain ⟨o1, o2, o3, o4, o5⟩ := insert_fold_spec hpow (records fts)
    (mkArray T (none : Slot)) [] hsz0 (fun d hd => absurd hd (List.not_mem_nil d))
    hgood hdis0 hlive0 huniq0 hfound0 hroom0
    (fill_hashtable (T - 1) (mkArray T (none : Slot)) fts)
    (fill_hashtable_eq_fold (T - 1) (mkArray T (none : Slot)) fts)
  have hdescr : (realloc_frame_descriptors fts).descriptors =
      fill_hashtable (T - 1) (mkArray T (none : Slot)) fts := rfl
  have hmaskeq : (realloc_frame_descriptors fts).mask = T - 1 := rfl
  have hcap : capacity (realloc_frame_descriptors fts) = T := by
    unfold capacity
    rw [hmaskeq, hmask]
  refine ⟨⟨?_, ?_, ?_, ?_, ?_⟩, ?_, ?_, ?_, ?_, ?_⟩
  · rw [hdescr, hmaskeq]
    exact o1
  · rw [hmaskeq]
    exact ⟨j, hpow⟩
  · rw [hdescr]
    simpa using o3
  · rw [hdescr]
    exact o4
  · rw [hdescr, hmaskeq]
    simpa using o5
  · rw [hcap]
    exact hT4
  · rw [hcap]
    omega
  · show ((n : Nat) : Int) = _
    rw [hcnt]
  · rfl
  · rw [hdescr, nonNullCount_mkArray] at *
    simpa using o2

/-! ## Correctness of registration -/

lemma DistinctAddrs_swap {A B : List frame_descr}
    (h : DistinctAddrs (A ++ B)) : DistinctAddrs (B ++ A) := by
  unfold DistinctAddrs at *
  rw [List.pairwise_append] at *
  obtain ⟨h1, h2, h3⟩ := h
  exact ⟨h2, h1, fun b hb a ha => (h3 a ha b hb).symm⟩

lemma AllFound_subset {descs : Array Slot} {mask : Nat}
    {A B : List frame_descr} (h : AllFound descs mask A)
    (hsub : ∀ d, d ∈ B → d ∈ A) : AllFound descs mask B :=
  fun d hd => h d (hsub d hd)

lemma LiveIn_mono {descs : Array Slot} {A B : List frame_descr}
    (h : LiveIn descs A) (hsub : ∀ e, e ∈ A → e ∈ B) : LiveIn descs B :=
  fun e he hh => hsub e (h e he hh)

lemma add_spec (t : caml_frame_descrs) (nfts : List Frametable)
    (hok : TableOK t (records t.frametables))
    (hnum : t.num_descr = ((records t.frametables).length : Int))
    (hcap : 2 * (records t.frametables).length ≤ capacity t)
    (hnn : nonNullCount t.descriptors ≤ (records t.frametables).length)
    (hgood : GoodRecs (records t.frametables ++ records nfts))
    (hdis : DistinctAddrs (records t.frametables ++ records nfts)) :
    TableOK (add_frame_descriptors t nfts)
      (records t.frametables ++ records nfts) ∧
    (add_frame_descriptors t nfts).frametables = nfts ++ t.frametables ∧
    (add_frame_descriptors t nfts).num_descr =
      (((records t.frametables).length + (records nfts).length : Nat) : Int) ∧
    2 * ((records t.frametables).length + (records nfts).length) ≤
      capacity (add_frame_descriptors t nfts) ∧
    nonNullCount (add_frame_descriptors t nfts).descriptors ≤
      (records t.frametables).length + (records nfts).length := by
  obtain ⟨hsz, ⟨kk, hpow⟩, hlive, huniq, hfound⟩ := hok
  have hcnt1 : count_descriptors nfts = (records nfts).length :=
    count_descriptors_eq_length nfts
  have hadd : add_frame_descriptors t nfts =
      if (capacity t : Int) <
          (t.num_descr + (count_descriptors nfts : Int)) * 2 then
        realloc_frame_descriptors_from_stw_single t nfts
          (count_descriptors nfts : Int)
      else
        { t with
            num_descr := t.num_descr + (count_descriptors nfts : Int)
            descriptors := fill_hashtable t.mask t.descriptors nfts
            frametables := nfts ++ t.frametables } := rfl
  by_cases hc : (capacity t : Int) <
      (t.num_descr + (count_descriptors nfts : Int)) * 2
  · have hstw : realloc_frame_descriptors_from_stw_single t nfts
        (count_descriptors nfts : Int) =
        realloc_frame_descriptors (nfts ++ t.frametables) := by
      unfold realloc_frame_descriptors_from_stw_single
      rw [if_pos hc]
    rw [hadd, if_pos hc, hstw]
    have hgood' : GoodRecs (records (nfts ++ t.frametables)) := by
      rw [records_append]
      intro d hd
      rcases List.mem_append.mp hd with h | h
      · exact hgood d (List.mem_append.mpr (Or.inr h))
      · exact hgood d (List.mem_append.mpr (Or.inl h))
    have hdis' : DistinctAddrs (records (nfts ++ t.frametables)) := by
      rw [records_append]
      exact DistinctAddrs_swap hdis
    obtain ⟨⟨r1, r2, r3, r4, r5⟩, rc4, rc2, rnum, rfr, rnn⟩ :=
      realloc_spec (nfts ++ t.frametables) hgood' hdis'
    rw [records_append] at r3 r5 rnum rnn rc2
    refine ⟨⟨r1, r2, ?_, r4, ?_⟩, ?_, ?_, ?_, ?_⟩
    · exact LiveIn_mono r3 (fun e he => by
        rcases List.mem_append.mp he with h | h
        · exact List.mem_append.mpr (Or.inr h)
        · exact List.mem_append.mpr (Or.inl h))
    · exact AllFound_subset r5 (fun d hd => by
        rcases List.mem_append.mp hd with h | h
        · exact List.mem_append.mpr (Or.inr h)
        · exact List.mem_append.mpr (Or.inl h))
    · exact rfr
    · rw [rnum, List.length_append]
      push_cast
      omega
    · rw [List.length_append] at rc2
      omega
    · rw [List.length_append] at rnn
      omega
  · rw [hadd, if_neg hc]
    have hcapn : 2 * ((records t.frametables).length +
        (records nfts).length) ≤ capacity t := by
      rw [hnum, hcnt1] at hc
      push_neg at hc
      have := hc
      omega
    have hroom : nonNullCount t.descriptors + (records nfts).length ≤
        t.mask + 1 := by
      unfold capacity at hcapn
      omega
    have hgoodL : GoodRecs (records nfts) :=
      fun d hd => hgood d (List.mem_append.mpr (Or.inr hd))
    have hgoodR : GoodRecs (records t.frametables) :=
      fun d hd => hgood d (List.mem_append.mpr (Or.inl hd))
    obtain ⟨o1, o2, o3, o4, o5⟩ := insert_fold_spec hpow (records nfts)
      t.descriptors (records t.frametables) hsz hgoodR hgoodL hdis hlive
      huniq hfound hroom
      (fill_hashtable t.mask t.descriptors nfts)
      (fill_hashtable_eq_fold t.mask t.descriptors nfts)
    refine ⟨⟨o1, ⟨kk, hpow⟩, o3, o4, o5⟩, rfl, ?_, ?_, ?_⟩
    · show t.num_descr + (count_descriptors nfts : Int) = _
      rw [hnum, hcnt1]
      push_cast
      omega
    · show 2 * _ ≤ capacity t
      exact hcapn
    · show nonNullCount (fill_hashtable t.mask t.descriptors nfts) ≤ _
      omega

/-! ## Correctness of deregistration -/

lemma invalid_entry_spec {descs : Array Slot} {mask k : Nat}
    (hpow : mask + 1 = 2 ^ k) (hsz : descs.size = mask + 1)
    {e : frame_descr}
    (hpres : ∃ j < descs.size, descs.getD j none = some e)
    {fuel : Nat} (hfuel : mask < fuel) :
    ∃ j < descs.size, descs.getD j none = some e ∧
      invalid_entry descs mask e fuel =
        some (descs.setD j (some dummy_descr)) := by
  obtain ⟨j, hj, hget⟩ := hpres
  obtain ⟨i₀, hi₀, hP, hmin⟩ := exists_first_probe hpow
    (fun u => descs.getD u none = some e)
    (Hash_le hpow e.retaddr) (show j ≤ mask by omega) hget
  refine ⟨probeIdx mask (Hash_retaddr e.retaddr mask) i₀, ?_, hP, ?_⟩
  · have := probeIdx_le hpow (Hash_retaddr e.retaddr mask) i₀
    omega
  · unfold invalid_entry
    exact invalid_entry_loop_stopAt hpow (Hash_retaddr e.retaddr mask) fuel
      (Hash_le hpow e.retaddr) (by omega) (fun i hi => hmin i hi) hP

lemma invalidate_fold_spec {mask k : Nat} (hpow : mask + 1 = 2 ^ k)
    {fuel : Nat} (hfuel : mask < fuel) :
    ∀ (E : List frame_descr) (descs : Array Slot),
    descs.size = mask + 1 →
    GoodRecs E → DistinctAddrs E →
    (∀ e ∈ E, ∃ j < descs.size, descs.getD j none = some e) →
    HolderUnique descs →
    ∃ out, E.foldl (fun a e => a.bind (fun a' => invalid_entry a' mask e fuel))
        (some descs) = some out ∧
    out.size = mask + 1 ∧
    nonNullCount out = nonNullCount descs ∧
    HolderUnique out ∧
    (∀ e ∈ E, ¬ holds out e) ∧
    (∀ x, x ≠ dummy_descr → holds out x → holds descs x) ∧
    (∀ d, 4096 ≤ d.retaddr → (∀ e ∈ E, d ≠ e) →
      Finds descs mask d.retaddr (some d) →
      Finds out mask d.retaddr (some d)) := by
  intro E
  induction E with
  | nil =>
    intro descs hsz hg hdis hpres huniq
    exact ⟨descs, rfl, hsz, rfl, huniq, fun e he => absurd he (List.not_mem_nil e),
      fun x _ hx => hx, fun d _ _ hF => hF⟩
  | cons e E' ih =>
    intro descs hsz hg hdis hpres huniq
    have hge : 4096 ≤ e.retaddr := hg e (List.mem_cons_self e E')
    have hend : e ≠ dummy_descr := good_ne_dummy hge
    unfold DistinctAddrs at hdis
    rw [List.pairwise_cons] at hdis
    obtain ⟨hd_head, hd_tail⟩ := hdis
    have hneq : ∀ x ∈ E', e ≠ x := by
      intro x hx hc
      exact hd_head x hx (by rw [hc])
    obtain ⟨j, hj, hget, heq⟩ :=
      invalid_entry_spec hpow hsz (hpres e (List.mem_cons_self e E')) hfuel
    have hstep : (e :: E').foldl
        (fun a x => a.bind (fun a' => invalid_entry a' mask x fuel))
        (some descs) =
        E'.foldl (fun a x => a.bind (fun a' => invalid_entry a' mask x fuel))
          (some (descs.setD j (some dummy_descr))) := by
      rw [List.foldl_cons]
      have hb : (some descs).bind (fun a' => invalid_entry a' mask e fuel) =
          some (descs.setD j (some dummy_descr)) := heq
      rw [hb]
    have hsz₁ : (descs.setD j (some dummy_descr)).size = mask + 1 := by
      rw [Array.size_setD, hsz]
    have hnn₁ : nonNullCount (descs.setD j (some dummy_descr)) =
        nonNullCount descs :=
      nonNullCount_setD_some descs j (some dummy_descr) hj
        (by rw [hget]; rfl) rfl
    have huniq₁ : HolderUnique (descs.setD j (some dummy_descr)) := by
      intro x hx u u' hu hu' hgu hgu'
      rw [Array.size_setD] at hu hu'
      by_cases huj : u = j
      · exfalso
        rw [huj, getD_setD_self descs j (some dummy_descr) none hj] at hgu
        exact hx (Option.some.inj hgu).symm
      · by_cases hu'j : u' = j
        · exfalso
          rw [hu'j, getD_setD_self descs j (some dummy_descr) none hj] at hgu'
          exact hx (Option.some.inj hgu').symm
        · rw [getD_setD_ne descs j u (some dummy_descr) none
            (fun hc => huj hc.symm)] at hgu
          rw [getD_setD_ne descs j u' (some dummy_descr) none
            (fun hc => hu'j hc.symm)] at hgu'
          exact huniq x hx u u' hu hu' hgu hgu'
    have hegone : ¬ holds (descs.setD j (some dummy_descr)) e := by
      rintro ⟨u, hu, hgu⟩
      rw [Array.size_setD] at hu
      by_cases huj : u = j
      · rw [huj, getD_setD_self descs j (some dummy_descr) none hj] at hgu
        exact hend (Option.some.inj hgu).symm
      · rw [getD_setD_ne descs j u (some dummy_descr) none
          (fun hc => huj hc.symm)] at hgu
        exact huj (huniq e hend u j hu hj hgu hget)
    have hpres₁ : ∀ x ∈ E', ∃ u < (descs.setD j (some dummy_descr)).size,
        (descs.setD j (some dummy_descr)).getD u none = some x := by
      intro x hx
      obtain ⟨u, hu, hgu⟩ := hpres x (List.mem_cons_of_mem e hx)
      have huj : u ≠ j := by
        intro hc
        rw [hc, hget] at hgu
        exact hneq x hx (Option.some.inj hgu)
      refine ⟨u, by rw [Array.size_setD]; exact hu, ?_⟩
      rw [getD_setD_ne descs j u (some dummy_descr) none
        (fun hc => huj hc.symm)]
      exact hgu
    obtain ⟨out, hfold, o1, o2, o3, o4, o5, o6⟩ :=
      ih (descs.setD j (some dummy_descr)) hsz₁
        (fun x hx => hg x (List.mem_cons_of_mem e hx)) hd_tail hpres₁ huniq₁
    refine ⟨out, ?_, o1, ?_, o3, ?_, ?_, ?_⟩
    · rw [hstep]
      exact hfold
    · rw [o2, hnn₁]
    · intro x hx
      rcases List.mem_cons.mp hx with rfl | hx'
      · intro hholds
        exact hegone (o5 x hend hholds)
      · exact o4 x hx'
    · intro x hxd hholds
      obtain ⟨u, hu, hgu⟩ := o5 x hxd hholds
      rw [Array.size_setD] at hu
      by_cases huj : u = j
      · rw [huj, getD_setD_self descs j (some dummy_descr) none hj] at hgu
        exact absurd (Option.some.inj hgu).symm hxd
      · rw [getD_setD_ne descs j u (some dummy_descr) none
          (fun hc => huj hc.symm)] at hgu
        exact ⟨u, hu, hgu⟩
    · intro d hdg hdne hF
      refine o6 d hdg (fun x hx => hdne x (List.mem_cons_of_mem e hx)) ?_
      have hdnj : descs.getD j none ≠ some d := by
        rw [hget]
        intro hc
        exact hdne e (List.mem_cons_self e E') (Option.some.inj hc).symm
      refine Finds_setD_dummy hpow hF hdnj ?_
      show dummy_descr.retaddr ≠ d.retaddr
      unfold dummy_descr
      simp only []
      omega

lemma invalidate_eq_records_fold (mask fuel : Nat) (fts : List Frametable) :
    ∀ st : Option (Array Slot),
    fts.foldl (invalidate_frametable mask fuel) st =
      (records fts).foldl
        (fun a e => a.bind (fun a' => invalid_entry a' mask e fuel)) st := by
  induction fts with
  | nil => intro st; rfl
  | cons ft fts ih =>
    intro st
    rw [List.foldl_cons, ih, records_cons, List.foldl_append]
    rfl

lemma remove_spec (t : caml_frame_descrs) (a : Array Frametable) {k : Nat}
    (hpow : t.mask + 1 = 2 ^ k) (hsz : t.descriptors.size = t.mask + 1)
    (hgood : GoodRecs (records a.toList))
    (hdis : DistinctAddrs (records a.toList))
    (hpres : ∀ e ∈ records a.toList,
      ∃ j < t.descriptors.size, t.descriptors.getD j none = some e)
    (huniq : HolderUnique t.descriptors)
    {fuel : Nat} (hfuel : t.mask < fuel) :
    ∃ out arr, remove_frame_descriptors t a fuel = some (out, arr) ∧
    out.mask = t.mask ∧
    out.num_descr = t.num_descr - (count_descriptors a.toList : Int) ∧
    out.descriptors.size = t.mask + 1 ∧
    nonNullCount out.descriptors = nonNullCount t.descriptors ∧
    HolderUnique out.descriptors ∧
    (∀ e ∈ records a.toList, ¬ holds out.descriptors e) ∧
    (∀ x, x ≠ dummy_descr → holds out.descriptors x →
      holds t.descriptors x) ∧
    (∀ d, 4096 ≤ d.retaddr → (∀ e ∈ records a.toList, d ≠ e) →
      Finds t.descriptors t.mask d.retaddr (some d) →
      Finds out.descriptors t.mask d.retaddr (some d)) := by
  obtain ⟨o, hfold, o1, o2, o3, o4, o5, o6⟩ :=
    invalidate_fold_spec hpow hfuel (records a.toList) t.descriptors hsz
      hgood hdis hpres huniq
  have hfold' : a.toList.foldl (invalidate_frametable t.mask fuel)
      (some t.descriptors) = some o := by
    rw [invalidate_eq_records_fold]
    exact hfold
  refine ⟨{ t with
      num_descr := t.num_descr -
        ((a.toList.foldl (fun n ft => n + frametable_len ft) 0 : Nat) : Int)
      descriptors := o
      frametables :=
        (unlink_frametables t.frametables a a.size).1 },
    (unlink_frametables t.frametables a a.size).2.1, ?_, rfl, rfl, o1, o2, o3,
    o4, o5, o6⟩
  unfold remove_frame_descriptors
  rw [hfold']

/-! ## Bookkeeping for the list reversals done by the C entry points -/

lemma foldl_cons_eq_reverse (l : List Frametable) :
    ∀ acc, l.foldl (fun acc ft => ft :: acc) acc = l.reverse ++ acc := by
  induction l with
  | nil => intro acc; simp
  | cons x xs ih =>
    intro acc
    rw [List.foldl_cons, ih, List.reverse_cons, List.append_assoc]
    simp

lemma caml_init_eq (l : List Frametable) :
    caml_init_frame_descriptors l = realloc_frame_descriptors l.reverse := by
  unfold caml_init_frame_descriptors
  rw [foldl_cons_eq_reverse, List.append_nil]

lemma caml_register_eq (t : caml_frame_descrs) (l : List Frametable) :
    caml_register_frametables t l = add_frame_descriptors t l.reverse := by
  unfold caml_register_frametables
  rw [foldl_cons_eq_reverse, List.append_nil]

lemma records_reverse_perm (l : List Frametable) :
    (records l.reverse).Perm (records l) := by
  unfold records
  rw [List.map_reverse]
  exact (List.reverse_perm (l.map (·.descrs))).flatten

lemma mem_records_reverse {l : List Frametable} {d : frame_descr} :
    d ∈ records l.reverse ↔ d ∈ records l :=
  (records_reverse_perm l).mem_iff

lemma DistinctAddrs_addr_inj {R : List frame_descr} (h : DistinctAddrs R)
    {a b : frame_descr} (ha : a ∈ R) (hb : b ∈ R)
    (he : a.retaddr = b.retaddr) : a = b := by
  induction R with
  | nil => cases ha
  | cons x xs ih =>
    unfold DistinctAddrs at h
    rw [List.pairwise_cons] at h
    rcases List.mem_cons.mp ha with rfl | ha' <;>
      rcases List.mem_cons.mp hb with rfl | hb'
    · rfl
    · exact absurd he (h.1 b hb')
    · exact absurd he.symm (h.1 a ha')
    · exact ih h.2 ha' hb'

/-! ## Claim theorems -/

/-- C1: Round-trip.  Starting from the registry built at initialization,
register a list of batches: a lookup of every return address present in the
new batches returns the pointer to its original record.  A subsequent
deregistration of the same batches succeeds, and afterwards each of those
addresses looks up to the not-found indication `NULL`.  The hypotheses state
the batch contract: return addresses of the registered records are genuine
(at least 4096) and pairwise distinct. -/
theorem register_lookup_deregister_roundtrip (init bs : List Frametable)
    (hgood : GoodRecs (records init ++ records bs))
    (hdis : DistinctAddrs (records init ++ records bs)) :
    (∀ d ∈ records bs,
      caml_find_frame_descr
        (caml_register_frametables (caml_init_frame_descriptors init) bs)
        d.retaddr
        (capacity
          (caml_register_frametables (caml_init_frame_descriptors init) bs)) =
        some (some d)) ∧
    ∃ out arr,
      caml_unregister_frametables
        (caml_register_frametables (caml_init_frame_descriptors init) bs)
        bs.toArray
        (capacity
          (caml_register_frametables (caml_init_frame_descriptors init) bs)) =
        some (out, arr) ∧
      ∀ d ∈ records bs,
        caml_find_frame_descr out d.retaddr (capacity out) = some none := by
  rw [caml_init_eq, caml_register_eq]
  have hpermA : (records init.reverse ++ records bs.reverse).Perm
      (records init ++ records bs) :=
    (records_reverse_perm init).append (records_reverse_perm bs)
  have hgoodA : GoodRecs (records init.reverse ++ records bs.reverse) :=
    fun d hd => hgood d (hpermA.mem_iff.mp hd)
  have hdisA : DistinctAddrs (records init.reverse ++ records bs.reverse) := by
    unfold DistinctAddrs at hdis ⊢
    exact (List.Perm.pairwise_iff (fun hxy => Ne.symm hxy) hpermA).mpr hdis
  have hgood0 : GoodRecs (records init.reverse) :=
    fun d hd => hgoodA d (List.mem_append.mpr (Or.inl hd))
  have hdis0 : DistinctAddrs (records init.reverse) := by
    unfold DistinctAddrs at hdisA ⊢
    exact (List.pairwise_append.mp hdisA).1
  obtain ⟨hok0, hc4, hc2, hnum0, hfr0, hnn0⟩ :=
    realloc_spec init.reverse hgood0 hdis0
  obtain ⟨hok1, hfr1, hnum1, hcap1, hnn1⟩ :=
    add_spec (realloc_frame_descriptors init.reverse) bs.reverse
      (by rw [hfr0]; exact hok0) (by rw [hfr0]; exact hnum0)
      (by rw [hfr0]; exact hc2) (by rw [hfr0]; exact hnn0)
      (by rw [hfr0]; exact hgoodA) (by rw [hfr0]; exact hdisA)
  rw [hfr0] at hok1 hnum1 hcap1 hnn1
  set s1 := add_frame_descriptors (realloc_frame_descriptors init.reverse)
    bs.reverse with hs1
  obtain ⟨hsz1, ⟨k1, hpow1⟩, hlive1, huniq1, hfound1⟩ := hok1
  have hfuel1 : s1.mask < capacity s1 := by
    unfold capacity
    omega
  constructor
  · intro d hd
    have hdmem : d ∈ records init.reverse ++ records bs.reverse :=
      List.mem_append.mpr (Or.inr (mem_records_reverse.mpr hd))
    exact caml_find_of_Finds hpow1 (hfound1 d hdmem) hfuel1
  · have hgood_a : GoodRecs (records (bs.toArray).toList) :=
      fun d hd => hgood d (List.mem_append.mpr (Or.inr hd))
    have hdis_a : DistinctAddrs (records (bs.toArray).toList) := by
      unfold DistinctAddrs at hdis ⊢
      exact (List.pairwise_append.mp hdis).2.1
    have hpres : ∀ e ∈ records (bs.toArray).toList,
        ∃ j < s1.descriptors.size, s1.descriptors.getD j none = some e := by
      intro e he
      have hemem : e ∈ records init.reverse ++ records bs.reverse :=
        List.mem_append.mpr (Or.inr (mem_records_reverse.mpr he))
      exact Finds_holds hpow1 hsz1 (hfound1 e hemem)
    obtain ⟨out, arr, hrem, hmask', hnum', hsz', hnn', huniq', hgone',
        hshrink', hsurv'⟩ :=
      remove_spec s1 bs.toArray hpow1 hsz1 hgood_a hdis_a hpres huniq1 hfuel1
    refine ⟨out, arr, ?_, ?_⟩
    · unfold caml_unregister_frametables
      exact hrem
    · intro d hd
      have hd4096 : 4096 ≤ d.retaddr :=
        hgood d (List.mem_append.mpr (Or.inr hd))
      have hdmem : d ∈ records init.reverse ++ records bs.reverse :=
        List.mem_append.mpr (Or.inr (mem_records_reverse.mpr hd))
      have hpow_out : out.mask + 1 = 2 ^ k1 := by
        rw [hmask']
        exact hpow1
      have hfuel_out : out.mask < capacity out := by
        unfold capacity
        omega
      refine caml_find_of_Finds hpow_out ?_ hfuel_out
      have hsz_out : out.descriptors.size = out.mask + 1 := by
        rw [hmask']
        exact hsz'
      have hnull : ∃ j < out.descriptors.size,
          out.descriptors.getD j none = none := by
        apply exists_null_of_nonNullCount_lt
        unfold capacity at hcap1
        rw [hsz', hnn']
        omega
      have habsent : ¬ liveAddr out.descriptors d.retaddr := by
        rintro ⟨x, hxd, hxr, hholds⟩
        have hx_s1 : holds s1.descriptors x := hshrink' x hxd hholds
        have hxRA : x ∈ records init.reverse ++ records bs.reverse :=
          hlive1 x hxd hx_s1
        have hxd_eq : x = d := DistinctAddrs_addr_inj hdisA hxRA hdmem hxr
        rw [hxd_eq] at hholds
        exact hgone' d hd hholds
      have hpc : dummy_descr.retaddr ≠ d.retaddr := by
        show (1 : Nat) ≠ d.retaddr
        omega
      have := Finds_none_of_absent hpow_out hsz_out hnull habsent hpc
      rw [hmask']
      rw [hmask'] at this
      exact this

lemma capacity_realloc (fts : List Frametable) :
    capacity (realloc_frame_descriptors fts) =
      grow_tblsize (count_descriptors fts) 4
        (2 * count_descriptors fts + 2) := by
  have h4 : 4 ≤ grow_tblsize (count_descriptors fts) 4
      (2 * count_descriptors fts + 2) :=
    grow_tblsize_self_le (count_descriptors fts)
      (2 * count_descriptors fts + 2) 4
  show grow_tblsize (count_descriptors fts) 4
    (2 * count_descriptors fts + 2) - 1 + 1 = _
  omega

lemma find_loop_sound {descs : Array Slot} {mask pc : Nat} :
    ∀ fuel h r, find_loop descs mask pc h fuel = some r →
    r = none ∨ ∃ e, r = some e ∧ e.retaddr = pc := by
  intro fuel
  induction fuel with
  | zero =>
    intro h r hr
    simp [find_loop] at hr
  | succ f ih =>
    intro h r hr
    rw [find_loop] at hr
    cases hval : descs.getD h none with
    | none =>
      rw [hval] at hr
      simp at hr
      exact Or.inl hr.symm
    | some d =>
      rw [hval] at hr
      by_cases hdc : d.retaddr = pc
      · simp [hdc] at hr
        exact Or.inr ⟨d, hr.symm, hdc⟩
      · simp [hdc] at hr
        exact ih ((h + 1) &&& mask) r hr

/-- C2: No false negatives under growth.  If registering `nfts` forces a
rebuild (the capacity check fails), then after `add_frame_descriptors` every
record of every previously-registered, still-active frametable — i.e. every
record reachable from the registry's frametable list, which is exactly what
the rebuild re-inserts — is still found by a lookup of its return address. -/
theorem rebuild_preserves_existing_entries (t : caml_frame_descrs)
    (nfts : List Frametable)
    (hgood : GoodRecs (records t.frametables ++ records nfts))
    (hdis : DistinctAddrs (records t.frametables ++ records nfts))
    (hforce : (capacity t : Int) <
      (t.num_descr + (count_descriptors nfts : Int)) * 2) :
    ∀ d ∈ records t.frametables,
      caml_find_frame_descr (add_frame_descriptors t nfts) d.retaddr
        (capacity (add_frame_descriptors t nfts)) = some (some d) := by
  have hadd : add_frame_descriptors t nfts =
      realloc_frame_descriptors (nfts ++ t.frametables) := by
    unfold add_frame_descriptors realloc_frame_descriptors_from_stw_single
    rw [if_pos hforce, if_pos hforce]
  rw [hadd]
  have hg' : GoodRecs (records (nfts ++ t.frametables)) := by
    rw [records_append]
    intro d hd
    rcases List.mem_append.mp hd with h | h
    · exact hgood d (List.mem_append.mpr (Or.inr h))
    · exact hgood d (List.mem_append.mpr (Or.inl h))
  have hd' : DistinctAddrs (records (nfts ++ t.frametables)) := by
    rw [records_append]
    exact DistinctAddrs_swap hdis
  obtain ⟨⟨hsz, ⟨kk, hpow⟩, hl, hu, hf⟩, _, _, _, _, _⟩ :=
    realloc_spec (nfts ++ t.frametables) hg' hd'
  intro d hd
  have hdmem : d ∈ records (nfts ++ t.frametables) := by
    rw [records_append]
    exact List.mem_append.mpr (Or.inr hd)
  refine caml_find_of_Finds hpow (hf d hdmem) ?_
  unfold capacity
  omega

/-- C2 witness: a concrete forced rebuild (capacity 8, 4 + 4 records). -/
theorem rebuild_preserves_existing_entries_witness :
    GoodRecs (records (caml_init_frame_descriptors [wit_b1]).frametables ++
      records [wit_b2]) ∧
    ∀ d ∈ records (caml_init_frame_descriptors [wit_b1]).frametables,
      caml_find_frame_descr
        (add_frame_descriptors (caml_init_frame_descriptors [wit_b1])
          [wit_b2]) d.retaddr
        (capacity (add_frame_descriptors (caml_init_frame_descriptors [wit_b1])
          [wit_b2])) = some (some d) :=
  ⟨by unfold GoodRecs; decide,
    rebuild_preserves_existing_entries (caml_init_frame_descriptors [wit_b1])
      [wit_b2] (by unfold GoodRecs; decide)
      (by unfold DistinctAddrs; decide) (by decide)⟩

/-- C3 (refutation of the claimed termination): a reachable registry state
in which the find loop never terminates.  Build from one batch of four
records (capacity 8, slots 0-3), deregister it (slots 0-3 become
tombstones), register four records hashing to slots 4-7 (the fast path
applies since the live count is again 4): now every slot is non-`NULL`,
no slot matches the absent address 5000, and the probe loop of
`caml_find_frame_descr` runs forever — the model reports fuel exhaustion
for every fuel.  The 50% load-factor bound counts only live records, not
tombstones, so it does not bound this probe. -/
theorem lookup_divergence_after_tombstone_saturation :
    ∃ pr, remove_frame_descriptors (caml_init_frame_descriptors [wit_b1])
        #[wit_b1] 8 = some pr ∧
      ∀ fuel, caml_find_frame_descr
        (caml_register_frametables pr.1 [wit_b2]) 5000 fuel = none := by
  refine ⟨(remove_frame_descriptors (caml_init_frame_descriptors [wit_b1])
      #[wit_b1] 8).getD (caml_init_frame_descriptors [wit_b1], #[]), ?_, ?_⟩
  · rfl
  · intro fuel
    unfold caml_find_frame_descr
    exact find_loop_diverges (k := 3) (by decide) (by decide) fuel
      (Hash_retaddr 5000 _) (by decide)

/-- C9: Deregistration mutates the caller-supplied array of frametable
handles in place by swap-removal, so its contents after the call differ from
the contents before: removing the first and third of three registered
batches leaves the caller's array holding the third batch twice. -/
theorem deregister_overwrites_caller_array :
    (caml_unregister_frametables
        (caml_init_frame_descriptors [wit_c3, wit_c2, wit_c1])
        #[wit_c1, wit_c3] 8).map Prod.snd = some #[wit_c3, wit_c3] ∧
    (#[wit_c3, wit_c3] : Array Frametable) ≠ #[wit_c1, wit_c3] :=
  ⟨by decide, by decide⟩

/-- C10: Lookup postcondition.  Whenever the find loop returns (result
`some r`), the returned value `r` is `NULL` or a pointer to a record whose
`retaddr` equals the queried `pc`; and if `pc` differs from the tombstone's
stored address, the result is never the tombstone itself. -/
theorem find_result_sound (t : caml_frame_descrs) (pc fuel : Nat) (r : Slot)
    (h : caml_find_frame_descr t pc fuel = some r) :
    (r = none ∨ ∃ e, r = some e ∧ e.retaddr = pc) ∧
    (pc ≠ dummy_descr.retaddr → r ≠ some dummy_descr) := by
  have h1 := find_loop_sound fuel (Hash_retaddr pc t.mask) r h
  refine ⟨h1, ?_⟩
  intro hpc hc
  rcases h1 with rfl | ⟨e, he, hepc⟩
  · exact absurd hc (by simp)
  · rw [he] at hc
    have : e = dummy_descr := Option.some.inj hc
    rw [this] at hepc
    exact hpc hepc.symm

/-- C10 witness: a concrete lookup that returns a record. -/
theorem find_result_sound_witness :
    caml_find_frame_descr (caml_init_frame_descriptors [wit_b1]) 4104 8 =
      some (some (mk_descr 4104)) ∧
    ((some (mk_descr 4104) = (none : Slot) ∨
      ∃ e, some (mk_descr 4104) = some e ∧ e.retaddr = 4104) ∧
    (4104 ≠ dummy_descr.retaddr →
      some (mk_descr 4104) ≠ some dummy_descr)) :=
  ⟨by decide,
    find_result_sound (caml_init_frame_descriptors [wit_b1]) 4104 8
      (some (mk_descr 4104)) (by decide)⟩

/-- C1 witness: the round trip at two concrete batches. -/
theorem register_lookup_deregister_roundtrip_witness :
    GoodRecs (records [wit_b1] ++ records [wit_b2]) ∧
    ∀ d ∈ records [wit_b2],
      caml_find_frame_descr
        (caml_register_frametables (caml_init_frame_descriptors [wit_b1])
          [wit_b2]) d.retaddr
        (capacity (caml_register_frametables
          (caml_init_frame_descriptors [wit_b1]) [wit_b2])) = some (some d) :=
  ⟨by unfold GoodRecs; decide,
    (register_lookup_deregister_roundtrip [wit_b1] [wit_b2]
      (by unfold GoodRecs; decide) (by unfold DistinctAddrs; decide)).1⟩

/-- C4: Invariants I1 and I2.  A fresh build establishes them; registration
(fast path or rendezvous rebuild, the latter for any `increase`) preserves
them; deregistration preserves them.  `capacity` is never 0 after
initialization in this model, so I2's guard is immediate. -/
theorem registry_invariants_preserved :
    (∀ fts, I1 (realloc_frame_descriptors fts) ∧
      I2 (realloc_frame_descriptors fts)) ∧
    (∀ t nfts, I1 t → I2 t →
      I1 (add_frame_descriptors t nfts) ∧ I2 (add_frame_descriptors t nfts)) ∧
    (∀ t nfts increase, I1 t → I2 t →
      I1 (realloc_frame_descriptors_from_stw_single t nfts increase) ∧
      I2 (realloc_frame_descriptors_from_stw_single t nfts increase)) ∧
    (∀ t a fuel out arr, remove_frame_descriptors t a fuel = some (out, arr) →
      I1 t → I2 t → I1 out ∧ I2 out) := by
  have hre : ∀ fts, I1 (realloc_frame_descriptors fts) ∧
      I2 (realloc_frame_descriptors fts) := by
    intro fts
    constructor
    · rw [I1, capacity_realloc]
      exact grow_tblsize_pow _ _ _ ⟨2, rfl⟩
    · intro _
      have hge : 2 * count_descriptors fts ≤
          capacity (realloc_frame_descriptors fts) := by
        rw [capacity_realloc]
        exact grow_tblsize_ge _ _ _ (by omega) (by omega)
      have hnum : (realloc_frame_descriptors fts).num_descr =
          (count_descriptors fts : Int) := rfl
      rw [hnum]
      push_cast at hge ⊢
      omega
  have hstw : ∀ t nfts increase, I1 t → I2 t →
      I1 (realloc_frame_descriptors_from_stw_single t nfts increase) ∧
      I2 (realloc_frame_descriptors_from_stw_single t nfts increase) := by
    intro t nfts increase h1 h2
    unfold realloc_frame_descriptors_from_stw_single
    by_cases hc : (capacity t : Int) < (t.num_descr + increase) * 2
    · rw [if_pos hc]
      exact hre (nfts ++ t.frametables)
    · rw [if_neg hc]
      constructor
      · exact h1
      · intro _
        push_neg at hc
        show (t.num_descr + increase) * 2 ≤ (capacity t : Int)
        omega
  refine ⟨hre, ?_, hstw, ?_⟩
  · intro t nfts h1 h2
    unfold add_frame_descriptors
    by_cases hc : (capacity t : Int) <
        (t.num_descr + (count_descriptors nfts : Int)) * 2
    · rw [if_pos hc]
      exact hstw t nfts (count_descriptors nfts : Int) h1 h2
    · rw [if_neg hc]
      constructor
      · exact h1
      · intro _
        push_neg at hc
        show (t.num_descr + (count_descriptors nfts : Int)) * 2 ≤
          (capacity t : Int)
        omega
  · intro t a fuel out arr hrem h1 h2
    unfold remove_frame_descriptors at hrem
    rcases hm : a.toList.foldl (invalidate_frametable t.mask fuel)
        (some t.descriptors) with _ | descs
    · rw [hm] at hrem
      cases hrem
    · rw [hm] at hrem
      have hp := Option.some.inj hrem
      have hout : out = { t with
          num_descr := t.num_descr -
            ((a.toList.foldl (fun n ft => n + frametable_len ft) 0 : Nat) : Int)
          descriptors := descs
          frametables := (unlink_frametables t.frametables a a.size).1 } := by
        have := congrArg Prod.fst hp
        exact this.symm
      constructor
      · rw [I1] at h1 ⊢
        rw [hout]
        exact h1
      · intro _
        rw [hout]
        show (t.num_descr - _) * 2 ≤ ((t.mask + 1 : Nat) : Int)
        have h2' : t.num_descr * 2 ≤ ((t.mask + 1 : Nat) : Int) :=
          h2 (by unfold capacity; omega)
        have hnn : (0 : Int) ≤
            ((a.toList.foldl (fun n ft => n + frametable_len ft) 0 : Nat) :
              Int) := Int.natCast_nonneg _
        omega

/-- C4 witness: the invariants at a concrete build and a concrete fast-path
registration on top of it. -/
theorem registry_invariants_preserved_witness :
    I1 (add_frame_descriptors (caml_init_frame_descriptors [wit_b1]) []) ∧
    I2 (add_frame_descriptors (caml_init_frame_descriptors [wit_b1]) []) :=
  registry_invariants_preserved.2.1 (caml_init_frame_descriptors [wit_b1]) []
    ⟨3, by decide⟩ (fun _ => by decide)

/-- C5: Deregistering one record overwrites exactly the slot that holds it
with the tombstone sentinel `&dummy_descr` — never with `NULL` — and after
that overwrite, the lookup of any other live record (in particular one
whose probe chain passes through the removed slot) still returns that
record. -/
theorem tombstone_removal_non_interference {descs : Array Slot}
    {mask k : Nat} {e : frame_descr} (hpow : mask + 1 = 2 ^ k)
    (hsz : descs.size = mask + 1)
    (hpres : ∃ j < descs.size, descs.getD j none = some e)
    {fuel : Nat} (hfuel : mask < fuel) :
    ∃ j < descs.size, descs.getD j none = some e ∧
      invalid_entry descs mask e fuel =
        some (descs.setD j (some dummy_descr)) ∧
      ∀ d, 4096 ≤ d.retaddr → d ≠ e →
        Finds descs mask d.retaddr (some d) →
        find_loop (descs.setD j (some dummy_descr)) mask d.retaddr
          (Hash_retaddr d.retaddr mask) fuel = some (some d) := by
  obtain ⟨j, hj, hget, heq⟩ := invalid_entry_spec hpow hsz hpres hfuel
  refine ⟨j, hj, hget, heq, ?_⟩
  intro d hd4096 hde hF
  have hdnj : descs.getD j none ≠ some d := by
    rw [hget]
    intro hc
    exact hde (Option.some.inj hc).symm
  have hpc : dummy_descr.retaddr ≠ d.retaddr := by
    show (1 : Nat) ≠ d.retaddr
    omega
  exact find_loop_of_Finds hpow (Finds_setD_dummy hpow hF hdnj hpc) hfuel

/-- C5 witness: removing the record at address 4096 from the concrete
initial table. -/
theorem tombstone_removal_non_interference_witness :
    ∃ j < (caml_init_frame_descriptors [wit_b1]).descriptors.size,
      (caml_init_frame_descriptors [wit_b1]).descriptors.getD j none =
        some (mk_descr 4096) ∧
      invalid_entry (caml_init_frame_descriptors [wit_b1]).descriptors 7
        (mk_descr 4096) 8 =
        some ((caml_init_frame_descriptors [wit_b1]).descriptors.setD j
          (some dummy_descr)) ∧
      ∀ d, 4096 ≤ d.retaddr → d ≠ mk_descr 4096 →
        Finds (caml_init_frame_descriptors [wit_b1]).descriptors 7 d.retaddr
          (some d) →
        find_loop ((caml_init_frame_descriptors [wit_b1]).descriptors.setD j
          (some dummy_descr)) 7 d.retaddr (Hash_retaddr d.retaddr 7) 8 =
          some (some d) :=
  tombstone_removal_non_interference (k := 3) (by decide) (by decide)
    ⟨0, by decide, by decide⟩ (by decide)

/-- C6: Capacity choice of a build.  The capacity of a freshly built index
is a power of two, at least 4, at least `2 * total record count`, and
minimal among powers of two with those properties; concretely, building
from 3 records yields capacity 8, and registering 12 more records on top
(forcing a rebuild to hold 15) yields capacity 32. -/
theorem capacity_smallest_power_of_two :
    (∀ fts,
      (∃ j, capacity (realloc_frame_descriptors fts) = 2 ^ j) ∧
      4 ≤ capacity (realloc_frame_descriptors fts) ∧
      2 * count_descriptors fts ≤ capacity (realloc_frame_descriptors fts) ∧
      (∀ m, 4 ≤ 2 ^ m → 2 * count_descriptors fts ≤ 2 ^ m →
        capacity (realloc_frame_descriptors fts) ≤ 2 ^ m)) ∧
    capacity (caml_init_frame_descriptors [wit_ft3]) = 8 ∧
    capacity (caml_register_frametables (caml_init_frame_descriptors [wit_ft3])
      [wit_ft12]) = 32 := by
  refine ⟨?_, by decide, by decide⟩
  intro fts
  rw [capacity_realloc]
  refine ⟨grow_tblsize_pow (count_descriptors fts)
      (2 * count_descriptors fts + 2) 4 ⟨2, rfl⟩,
    grow_tblsize_self_le (count_descriptors fts)
      (2 * count_descriptors fts + 2) 4,
    grow_tblsize_ge (count_descriptors fts)
      (2 * count_descriptors fts + 2) 4 (by omega) (by omega), ?_⟩
  intro m hm4 hm2
  exact grow_tblsize_min (count_descriptors fts)
    (2 * count_descriptors fts + 2) 4 ⟨2, rfl⟩ m (by omega) hm2

/-- C6 witness: minimality applied at the 3-record table and exponent 3. -/
theorem capacity_smallest_power_of_two_witness :
    4 ≤ 2 ^ 3 ∧ 2 * count_descriptors [wit_ft3] ≤ 2 ^ 3 ∧
    capacity (realloc_frame_descriptors [wit_ft3]) ≤ 2 ^ 3 :=
  ⟨by decide, by decide,
    (capacity_smallest_power_of_two.1 [wit_ft3]).2.2.2 3 (by decide)
      (by decide)⟩

/-- C7: Rendezvous rebuild body.  The single elected domain re-checks the
capacity: if still insufficient, the new batch list is merged onto the old
one and the table is rebuilt wholesale from the complete merged list (so the
installed state is exactly `Build` of that list, its record count is the
merged count, and the new capacity satisfies the load bound); otherwise the
body performs the fast-path fold: add `increase` to the count, fill the
records into the existing array, and prepend the new frametables. -/
theorem stw_rebuild_body_cases (t : caml_frame_descrs)
    (nfts : List Frametable) (increase : Int) :
    ((capacity t : Int) < (t.num_descr + increase) * 2 →
      realloc_frame_descriptors_from_stw_single t nfts increase =
        realloc_frame_descriptors (nfts ++ t.frametables) ∧
      (realloc_frame_descriptors_from_stw_single t nfts increase).num_descr =
        (count_descriptors (nfts ++ t.frametables) : Int) ∧
      (realloc_frame_descriptors_from_stw_single t nfts increase).frametables =
        nfts ++ t.frametables ∧
      2 * count_descriptors (nfts ++ t.frametables) ≤
        capacity (realloc_frame_descriptors_from_stw_single t nfts
          increase)) ∧
    (¬ (capacity t : Int) < (t.num_descr + increase) * 2 →
      (realloc_frame_descriptors_from_stw_single t nfts increase).num_descr =
        t.num_descr + increase ∧
      (realloc_frame_descriptors_from_stw_single t nfts increase).mask =
        t.mask ∧
      (realloc_frame_descriptors_from_stw_single t nfts increase).descriptors =
        fill_hashtable t.mask t.descriptors nfts ∧
      (realloc_frame_descriptors_from_stw_single t nfts increase).frametables =
        nfts ++ t.frametables) := by
  constructor
  · intro hc
    have heq : realloc_frame_descriptors_from_stw_single t nfts increase =
        realloc_frame_descriptors (nfts ++ t.frametables) := by
      unfold realloc_frame_descriptors_from_stw_single
      rw [if_pos hc]
    refine ⟨heq, ?_, ?_, ?_⟩
    · rw [heq]
      rfl
    · rw [heq]
      rfl
    · rw [heq, capacity_realloc]
      exact grow_tblsize_ge (count_descriptors (nfts ++ t.frametables))
        (2 * count_descriptors (nfts ++ t.frametables) + 2) 4 (by omega)
        (by omega)
  · intro hc
    have heq : realloc_frame_descriptors_from_stw_single t nfts increase =
        { t with
            num_descr := t.num_descr + increase
            descriptors := fill_hashtable t.mask t.descriptors nfts
            frametables := nfts ++ t.frametables } := by
      unfold realloc_frame_descriptors_from_stw_single
      rw [if_neg hc]
    exact ⟨by rw [heq], by rw [heq], by rw [heq], by rw [heq]⟩

/-- C7 witness: a concrete insufficient-capacity rebuild (capacity 8,
4 existing and 4 new records). -/
theorem stw_rebuild_body_cases_witness :
    (capacity (caml_init_frame_descriptors [wit_b1]) : Int) <
      ((caml_init_frame_descriptors [wit_b1]).num_descr + 4) * 2 ∧
    realloc_frame_descriptors_from_stw_single
      (caml_init_frame_descriptors [wit_b1]) [wit_b2] 4 =
      realloc_frame_descriptors
        ([wit_b2] ++ (caml_init_frame_descriptors [wit_b1]).frametables) :=
  ⟨by decide,
    ((stw_rebuild_body_cases (caml_init_frame_descriptors [wit_b1])
      [wit_b2] 4).1 (by decide)).1⟩
